import Mathlib

/-!
Verification of the star-polygon path planner (`TurtleEx.star` in
`src/turtle/star_polygon.py`).

The planner is embedded shallowly: the turtle cursor becomes a record
`TState` (position in ℂ, heading in radians, angle unit, pen flag, fill
flag, colour, and the undo-buffer bookkeeping the method touches), the
emitted drawing primitives become a command list `List Cmd`, and the
method `star` becomes a function that either fails with the
`TurtleGraphicsError` it would raise (paired with the state at the raise
point) or returns the emitted command trace together with the final
cursor state obtained by executing the trace.

Python's turtle stores its orientation as an exact unit vector and the
angle-unit switch (`radians()` / `degrees(full)`) only rescales the
interface numbers, so heading is modelled as a plain real (radians) and
the angle unit as the `_fullcircle` field the code saves and restores.
All floating-point arithmetic is idealised as real arithmetic.
-/

namespace StarPolygon

noncomputable section

/-- Drawing/cursor primitives the method emits, in the order the Python
code calls them.  `radiansMode` is `self.radians()`, `degreesMode f` is
`self.degrees(full)`; `undoPushSeq`/`undoCumulate` model
`self.undobuffer.push(["seq"])` and `self.undobuffer.cumulate = b`. -/
inductive Cmd where
  | forward (dist : ℝ)
  | rotate (ang : ℝ)
  | penup
  | pendown
  | goto (p : ℂ)
  | setheading (h : ℝ)
  | radiansMode
  | degreesMode (f : ℝ)
  | undoPushSeq
  | undoCumulate (b : Bool)

/-- The cursor state borrowed by the planner.  `position`/`heading` are
the pose, `fullcircle` is the angle unit (`_fullcircle`), `pendown` the
pen flag, `filling` the fill flag read by `self.filling()`, `color` an
abstract stand-in for cursor state the planner never touches, and the
three undo fields model the truthiness and contents of
`self.undobuffer`. -/
structure TState where
  position : ℂ
  heading : ℝ
  fullcircle : ℝ
  pendown : Bool
  filling : Bool
  color : ℕ
  hasUndobuffer : Bool
  undoCumulate : Bool
  undoSeqCount : ℕ

/-- Executing one primitive on the cursor state.  `forward d` moves `d`
along the heading direction, `rotate a` turns counterclockwise by `a`
radians (the code only rotates while the cursor is in radians mode). -/
def exec (st : TState) : Cmd → TState
  | .forward d => { st with position := st.position + (d : ℂ) * Complex.exp ((st.heading : ℂ) * Complex.I) }
  | .rotate a => { st with heading := st.heading + a }
  | .penup => { st with pendown := false }
  | .pendown => { st with pendown := true }
  | .goto p => { st with position := p }
  | .setheading h => { st with heading := h }
  | .radiansMode => { st with fullcircle := 2 * Real.pi }
  | .degreesMode f => { st with fullcircle := f }
  | .undoPushSeq => { st with undoSeqCount := st.undoSeqCount + 1 }
  | .undoCumulate b => { st with undoCumulate := b }

/-- The errors the method can raise.  `invalidStep hi` and
`edgeTooShort m` are the two `TurtleGraphicsError`s, carrying the data
interpolated into their messages: `"Bad argument for step should be in
[1..hi]"` (`hi = n - 1`) and `"Bad argument for edgelen should be
greater than m"` (`m = s / 2`).  The other two model the Python
built-in exceptions that escape line 129
(`rho = math.acos(s / (2.0 * u))`) in hull-given mode:
`zeroDivision` is the `ZeroDivisionError` raised by `s / (2.0 * u)`
when `u = 0`, and `mathDomain` is the `ValueError` ("math domain
error") raised by `math.acos` when its argument lies outside
`[-1, 1]` — both reachable, e.g. for a negative radius, where
`s < 0` makes the `u < s/2` check vacuous. -/
inductive StarError where
  | invalidStep (hi : ℕ)
  | edgeTooShort (minlen : ℝ)
  | zeroDivision
  | mathDomain

/-- The constants the emitter consumes, per mode.  Internal mode (step
`m ≥ 0`) keeps `m, alpha, beta, gamma, delta, s, t`; both hull modes
drive the same loop from `u, theta, sigma`. -/
inductive Geo where
  | internal (m : ℕ) (alpha beta gamma delta s t : ℝ)
  | hull (u theta sigma : ℝ)

/-- Constant derivation for the internal mode (`star_polygon.py`
lines 106-112). -/
def resolveInternal (r : ℝ) (n : ℕ) (m : ℕ) : Geo :=
  let sgn : ℝ := if r < 0 then -1 else 1
  let alpha := sgn * (2 * Real.pi) / n
  let beta := alpha * ((m : ℝ) + 1) / 2
  let gamma := alpha * m
  let delta := sgn * ((n : ℝ) - 2) / n * Real.pi
  let s := 2 * r * Real.sin (alpha / 2)
  let t := 2 * r * Real.sin (gamma / 2)
  .internal m alpha beta gamma delta s t

/-- Constant derivation for the hull mode with computed edge length
(`star_polygon.py` lines 113-121). -/
def resolveHullComputed (r : ℝ) (n : ℕ) (m : ℕ) : Geo :=
  let sgn : ℝ := if r < 0 then -1 else 1
  let alpha := sgn * (2 * Real.pi) / n
  let gamma := alpha * m
  let delta := sgn * ((n : ℝ) - 2) / n * Real.pi
  let theta := Real.pi - gamma
  let rho := (delta - theta) / 2
  let lambd := Real.pi - (alpha + theta) / 2
  let sigma := Real.pi - 2 * rho
  let u := Real.sin (alpha / 2) * r / Real.sin lambd
  .hull u theta sigma

/-- Constant derivation for the hull mode with a supplied edge length
(`star_polygon.py` lines 122-131): the `EdgeTooShort` check, then
`rho = math.acos(s / (2.0 * u))`, which in Python's evaluation order
raises `ZeroDivisionError` when `u = 0` and `ValueError` when the
quotient lies outside `math.acos`'s domain `[-1, 1]`; only inside that
domain does `Real.arccos` agree with `math.acos`. -/
def resolveHullGiven (radius : ℝ) (n : ℕ) (u : ℝ) : Except StarError Geo :=
  let sgn : ℝ := if radius < 0 then -1 else 1
  let r := sgn * radius
  let alpha := sgn * (2 * Real.pi) / n
  let delta := sgn * ((n : ℝ) - 2) / n * Real.pi
  let s := 2 * r * Real.sin (alpha / 2)
  if u < s / 2 then .error (.edgeTooShort (s / 2))
  else if 2 * u = 0 then .error .zeroDivision
  else if s / (2 * u) < -1 ∨ 1 < s / (2 * u) then .error .mathDomain
  else
    let rho := Real.arccos (s / (2 * u))
    let theta := delta - 2 * rho
    let sigma := Real.pi - 2 * rho
    .ok (.hull u theta sigma)

/-- The parameter resolver (`star_polygon.py` lines 87-131): defaulting
of `step`, discarding `edgelen` when `step` is present, sign handling
and range validation of a negative step (`m > n/2` is mirrored to
`n - m` with the radius negated), and dispatch to the per-mode constant
derivation. -/
def resolve (radius : ℝ) (n : ℕ) (step : Option ℤ) (edgelen : Option ℝ) :
    Except StarError Geo :=
  match step, edgelen with
  | none, none => .ok (resolveInternal radius n (max 1 ((n - 1) / 2)))
  | none, some u => resolveHullGiven radius n u
  | some m0, _ =>
    if 0 ≤ m0 then .ok (resolveInternal radius n m0.toNat)
    else
      let m1 := -m0
      if m1 ≤ 0 ∨ (n : ℤ) ≤ m1 then .error (.invalidStep (n - 1))
      else if (n : ℤ) < 2 * m1 then .ok (resolveHullComputed (-radius) n (n - m1.toNat))
      else .ok (resolveHullComputed radius n m1.toNat)

/-- One non-seam iteration of the internal-mode loop: `_rotate(gamma)`
then `forward(t)`. -/
def chordIter (gamma t : ℝ) : List Cmd :=
  [.rotate gamma, .forward t]

/-- One stellation-seam iteration of the internal-mode loop:
`_rotate(beta); penup(); forward(s); pendown(); _rotate(beta)` then the
common `forward(t)`. -/
def seamIter (beta s t : ℝ) : List Cmd :=
  [.rotate beta, .penup, .forward s, .pendown, .rotate beta, .forward t]

/-- The commands of internal-mode loop iteration `i`: the seam branch is
taken when `i` is a nonzero multiple of `n1` (`star_polygon.py`
lines 146-155). -/
def loopIterCmds (n1 : ℕ) (beta gamma s t : ℝ) (i : ℕ) : List Cmd :=
  if i ≠ 0 ∧ i % n1 = 0 then seamIter beta s t else chordIter gamma t

/-- The first `k` iterations of the internal-mode loop
(`for i in range(n)`). -/
def internalLoopAux (n1 : ℕ) (beta gamma s t : ℝ) : ℕ → List Cmd
  | 0 => []
  | k + 1 => internalLoopAux n1 beta gamma s t k ++ loopIterCmds n1 beta gamma s t k

/-- The repositioning loop of the fill fix-up: `d - 1` iterations of
`forward(s); _rotate(-alpha)` (`star_polygon.py` lines 160-162). -/
def fillBlock (alpha s : ℝ) : ℕ → List Cmd
  | 0 => []
  | k + 1 => fillBlock alpha s k ++ [.forward s, .rotate (-alpha)]

/-- The fill fix-up after the internal-mode loop, emitted only when the
cursor reports it is filling (`star_polygon.py` lines 157-163). -/
def fillFix (filling : Bool) (d : ℕ) (alpha beta delta s : ℝ) : List Cmd :=
  if filling then
    .penup :: .rotate (beta + delta) :: (fillBlock alpha s (d - 1) ++ [.pendown])
  else []

/-- The first `k` iterations of the hull-mode loop: each iteration is
`forward(u); _rotate(sigma - pi); forward(u); _rotate(pi - theta)`
(`star_polygon.py` lines 168-172). -/
def hullLoopAux (u theta sigma : ℝ) : ℕ → List Cmd
  | 0 => []
  | k + 1 => hullLoopAux u theta sigma k ++
      [.forward u, .rotate (sigma - Real.pi), .forward u, .rotate (Real.pi - theta)]

/-- The mode-specific drawing body (`star_polygon.py` lines 140-172):
the initial centring rotation, the main loop, and (internal mode) the
fill fix-up.  `d = gcd(n, m)` and `n1 = n / d` are computed exactly as
in the code. -/
def drawBody (n : ℕ) (filling : Bool) : Geo → List Cmd
  | .internal m alpha beta gamma delta s t =>
    let d := Nat.gcd n m
    let n1 := n / d
    .rotate (-(gamma / 2)) :: (internalLoopAux n1 beta gamma s t n ++ fillFix filling d alpha beta delta s)
  | .hull u theta sigma =>
    .rotate ((Real.pi - theta) / 2) :: hullLoopAux u theta sigma n

/-- The state-restore epilogue (`star_polygon.py` lines 174-182):
`degrees(full); penup(); goto(posit); pendown(); setheading(orient)`. -/
def closeTrace (posit : ℂ) (orient full : ℝ) : List Cmd :=
  [.degreesMode full, .penup, .goto posit, .pendown, .setheading orient]

/-- The whole method `TurtleEx.star`.  On a validation failure the
result carries the raised error together with the cursor state at the
raise point (the undo-buffer prologue has already run); on success it
returns the full emitted command trace and the final cursor state
obtained by executing it. -/
def star (st0 : TState) (radius : ℝ) (vertices : ℕ) (step : Option ℤ) (edgelen : Option ℝ) :
    Except (StarError × TState) (List Cmd × TState) :=
  let pre : List Cmd := if st0.hasUndobuffer then [.undoPushSeq, .undoCumulate true] else []
  match resolve radius vertices step edgelen with
  | .error e => .error (e, pre.foldl exec st0)
  | .ok geo =>
    let post : List Cmd := if st0.hasUndobuffer then [.undoCumulate false] else []
    let tr := pre ++ .radiansMode ::
      (drawBody vertices st0.filling geo ++ closeTrace st0.position st0.heading st0.fullcircle ++ post)
    .ok (tr, tr.foldl exec st0)

/-! ## Trace analysis -/

/-- An instrumented execution: alongside the cursor state it records the
pen-down forward distances in order (`pd`), the net displacement of the
pen-down forwards since the pen was last lowered (`pdSum`), and the net
displacements of the completed pen-down stretches (`stretches`, one
entry per `penup` that found the pen down). -/
structure Run where
  st : TState
  pd : List ℝ
  pdSum : ℂ
  stretches : List ℂ

/-- One instrumented step.  The cursor state always advances by `exec`;
the bookkeeping fields record pen-down forwards and stretch
boundaries. -/
def runCmd (ρ : Run) (c : Cmd) : Run :=
  match c with
  | .forward d =>
    if ρ.st.pendown then
      { st := exec ρ.st (.forward d), pd := ρ.pd ++ [d],
        pdSum := ρ.pdSum + (d : ℂ) * Complex.exp ((ρ.st.heading : ℂ) * Complex.I),
        stretches := ρ.stretches }
    else { ρ with st := exec ρ.st (.forward d) }
  | .penup =>
    if ρ.st.pendown then
      { st := exec ρ.st .penup, pd := ρ.pd, pdSum := 0,
        stretches := ρ.stretches ++ [ρ.pdSum] }
    else { ρ with st := exec ρ.st .penup }
  | c => { ρ with st := exec ρ.st c }

/-- Instrumented execution of a whole trace from a cursor state. -/
def runTrace (st0 : TState) (tr : List Cmd) : Run :=
  tr.foldl runCmd { st := st0, pd := [], pdSum := 0, stretches := [] }

/-- The emitted trace of a successful call (`[]` on failure). -/
def okTrace : Except (StarError × TState) (List Cmd × TState) → List Cmd
  | .ok (tr, _) => tr
  | .error _ => []

/-- Whether a call returned without raising. -/
def okB : Except (StarError × TState) (List Cmd × TState) → Bool
  | .ok _ => true
  | .error _ => false

/-- The raised error of a failed call, if any. -/
def errOf : Except (StarError × TState) (List Cmd × TState) → Option StarError
  | .ok _ => none
  | .error (e, _) => some e

/-- The cursor state a call leaves behind (final state on success,
state at the raise point on failure). -/
def finalState : Except (StarError × TState) (List Cmd × TState) → TState
  | .ok (_, st) => st
  | .error (_, st) => st

/-- The predicate `onOk res P` asserts `P` of the trace and final state whenever the
call returned without raising. -/
def onOk (res : Except (StarError × TState) (List Cmd × TState))
    (P : List Cmd → TState → Prop) : Prop :=
  match res with
  | .ok (tr, st) => P tr st
  | .error _ => True

/-- Number of pen-lift jump segments in a trace: occurrences of a
`forward` immediately after a `penup`.  In every trace the planner
emits, these are exactly the stellation-seam jumps (the fill fix-up and
the closing reposition follow their `penup` with a `rotate` resp. a
`goto`). -/
def jumpCount : List Cmd → ℕ
  | .penup :: .forward d :: rest => jumpCount (.forward d :: rest) + 1
  | _ :: rest => jumpCount rest
  | [] => 0

/-- All forward distances of a trace, in order. -/
def fwdDists (tr : List Cmd) : List ℝ :=
  tr.filterMap fun c => match c with | .forward d => some d | _ => none

/-- All relative rotation angles of a trace, in order. -/
def rotAngles (tr : List Cmd) : List ℝ :=
  tr.filterMap fun c => match c with | .rotate a => some a | _ => none

/-- Mirror relation between commands: forwards cover the same distance,
rotations are negated up to full turns, everything else is identical. -/
def MirrorCmd : Cmd → Cmd → Prop
  | .forward a, .forward b => a = b
  | .rotate a, .rotate b => ∃ k : ℤ, a + b = k * (2 * Real.pi)
  | c, c' => c = c'

/-- A concrete cursor state: origin, heading 0, degrees mode, pen down,
not filling, no undo buffer. -/
def st0c : TState :=
  { position := 0, heading := 0, fullcircle := 360, pendown := true,
    filling := false, color := 0, hasUndobuffer := false,
    undoCumulate := false, undoSeqCount := 0 }

/-- The state `st0c` with the pen lifted. -/
def st0up : TState :=
  { st0c with pendown := false }

/-- A block of `k` consecutive non-seam iterations. -/
def chordBlock (gamma t : ℝ) : ℕ → List Cmd
  | 0 => []
  | k + 1 => chordBlock gamma t k ++ chordIter gamma t

/-- Net displacement of `c` equal chords of length `t` starting from
heading `h` after an initial turn by `gamma` (the `k`-th chord points in
direction `h + (k+1)·gamma`). -/
def geomDisp (h gamma t : ℝ) (c : ℕ) : ℂ :=
  ∑ k in Finset.range c, (t : ℂ) * Complex.exp (((h + (k + 1) * gamma : ℝ) : ℂ) * Complex.I)

/-- The interior chord length of `{n/m}` exactly as the code computes
it: `t = 2r·sin(gamma/2)` with `gamma = sgn·(2π/n)·m`. -/
def tvalue (r : ℝ) (n m : ℕ) : ℝ :=
  2 * r * Real.sin ((if r < 0 then (-1 : ℝ) else 1) * (2 * Real.pi) / n * m / 2)

/-- The hull minimum `s/2` exactly as the hull-given resolver computes
it (`s = 2·(sgn·r)·sin(alpha/2)`). -/
def shalf (r : ℝ) (n : ℕ) : ℝ :=
  2 * ((if r < 0 then (-1 : ℝ) else 1) * r)
    * Real.sin ((if r < 0 then (-1 : ℝ) else 1) * (2 * Real.pi) / n / 2) / 2

/-- The exact failure behaviour of a hull-given call `star(r, n,
edgelen=u)` with `r > 0`: the raised error (if any) is `EdgeTooShort`
carrying the minimum `s/2 = r·sin(π/n)`, raised exactly when
`u < s/2`, and the call succeeds whenever `u ≥ s/2`. -/
def EdgeCheckProp (st0 : TState) (r : ℝ) (n : ℕ) (u : ℝ) : Prop :=
  errOf (star st0 r n none (some u)) =
    (if u < r * Real.sin (Real.pi / n) then
      some (.edgeTooShort (r * Real.sin (Real.pi / n))) else none) ∧
  (r * Real.sin (Real.pi / n) ≤ u → okB (star st0 r n none (some u)) = true)

/-- The stellation decomposition of a successful internal-mode call
`star(r, n, step = mm)`: the call succeeds, the pen-down trace is `n`
chords of the common length `t`, split by `d - 1` pen-lift seam jumps
into `d = gcd(n, mm)` sub-polygons of `n/d` chords each, every pen-down
stretch (sub-polygon) closes at zero net displacement, and the total
pen-down forward distance is `n·|t| = d` times the sub-polygon
perimeter `(n/d)·|t|`, interior chords only. -/
def StellationProp (st0 : TState) (r : ℝ) (n mm : ℕ) : Prop :=
  okB (star st0 r n (some (mm : ℤ)) none) = true ∧
  ∀ tr st', star st0 r n (some (mm : ℤ)) none = .ok (tr, st') →
    (runTrace st0 tr).pd = List.replicate n (tvalue r n mm) ∧
    jumpCount tr = Nat.gcd n mm - 1 ∧
    (runTrace st0 tr).pdSum = 0 ∧
    (∀ z ∈ (runTrace st0 tr).stretches, z = 0) ∧
    ((runTrace st0 tr).pd.map (fun x => |x|)).sum = n * |tvalue r n mm| ∧
    (n : ℝ) * |tvalue r n mm|
      = (Nat.gcd n mm : ℝ) * (((n / Nat.gcd n mm : ℕ) : ℝ) * |tvalue r n mm|)

/-- The behaviour of `step = 0`: no error at all (the `[1, n-1]` range
check only runs for negative step), `gamma = 0`, chord length `t = 0`,
`d = gcd(n, 0) = n` so `n1 = 1` and all `n - 1` later loop iterations
are stellation seams, and position/heading are still restored. -/
def StepZeroProp (st0 : TState) (r : ℝ) (n : ℕ) : Prop :=
  okB (star st0 r n (some 0) none) = true ∧
  (∃ a b dl s0, resolve r n (some 0) none = .ok (.internal 0 a b 0 dl s0 0)) ∧
  ∀ tr st', star st0 r n (some 0) none = .ok (tr, st') →
    st'.position = st0.position ∧ st'.heading = st0.heading ∧
    jumpCount tr = n - 1

/-- The hull-mode guarantee of a valid hull call: success, a resolved
`Geo.hull` geometry, and a trace of exactly `2n` equal forward moves of
its edge length `u` — pen-down and with no interior chords. -/
def HullMovesProp (st0 : TState) (r : ℝ) (n : ℕ) (step : Option ℤ) (eu : Option ℝ) : Prop :=
  okB (star st0 r n step eu) = true ∧
  ∃ uu th sg, resolve r n step eu = .ok (.hull uu th sg) ∧
    ∀ tr st', star st0 r n step eu = .ok (tr, st') →
      fwdDists tr = List.replicate (2 * n) uu ∧
      (runTrace st0 tr).pd = List.replicate (2 * n) uu

/-- The direction-inversion (mirror) relation between the two hull
calls `step = -mm` and `step = -(n-mm)` for `n/2 < mm ≤ n-1`: both
succeed and their traces match command by command, with equal forward
distances and rotation angles negated modulo full turns (opposite
winding). -/
def MirrorProp (st0 : TState) (r : ℝ) (n mm : ℕ) : Prop :=
  okB (star st0 r n (some (-(mm : ℤ))) none) = true ∧
  okB (star st0 r n (some (-((n - mm : ℕ) : ℤ))) none) = true ∧
  List.Forall₂ MirrorCmd
    (okTrace (star st0 r n (some (-(mm : ℤ))) none))
    (okTrace (star st0 r n (some (-((n - mm : ℕ) : ℤ))) none))

/-- The state `st0c` with an undo buffer present (cumulate flag clear). -/
def st0u : TState :=
  { st0c with hasUndobuffer := true }

/-! ## State save/restore -/

/-- No primitive the planner can emit changes the cursor's colour or
fill flag. -/
theorem foldl_exec_color_filling (l : List Cmd) : ∀ st : TState,
    (l.foldl exec st).color = st.color ∧ (l.foldl exec st).filling = st.filling := by
  induction l with
  | nil => intro st; exact ⟨rfl, rfl⟩
  | cons c rest ih =>
    intro st
    rw [List.foldl_cons]
    rcases ih (exec st c) with ⟨h1, h2⟩
    cases c <;> simp [exec] at h1 h2 ⊢ <;> exact ⟨h1, h2⟩

/-- Any successful call restores the pose snapshot and ends with the pen
down: the epilogue `degrees(full); penup(); goto(posit); pendown();
setheading(orient)` overwrites position, heading, angle unit, and pen
flag, and nothing after the prologue touches `color`/`filling`. -/
theorem star_ok_state (st0 : TState) (radius : ℝ) (n : ℕ) (step : Option ℤ) (eu : Option ℝ) :
    onOk (star st0 radius n step eu) fun _ st' =>
      st'.position = st0.position ∧ st'.heading = st0.heading ∧
      st'.fullcircle = st0.fullcircle ∧ st'.pendown = true ∧
      st'.color = st0.color ∧ st'.filling = st0.filling := by
  cases hres : resolve radius n step eu with
  | error e => simp [star, hres, onOk]
  | ok geo =>
    simp only [star, hres, onOk]
    rw [List.foldl_append, List.foldl_cons, List.foldl_append, List.foldl_append]
    by_cases hu : st0.hasUndobuffer <;>
      simp [hu, closeTrace, exec, foldl_exec_color_filling]

/-! ## Claims about state save/restore and validation -/

/-- C1: for every call with `n ≥ 3` that returns without error, the
cursor's position, heading, and angle unit after `drawStar` returns
equal their pre-call values: the emitter snapshots them before drawing
and explicitly restores them afterwards. -/
theorem c1_closure_pose_restored (st0 : TState) (radius : ℝ) (n : ℕ) (step : Option ℤ)
    (eu : Option ℝ) (hn : 3 ≤ n) :
    onOk (star st0 radius n step eu) fun _ st' =>
      st'.position = st0.position ∧ st'.heading = st0.heading ∧
      st'.fullcircle = st0.fullcircle := by
  have h := star_ok_state st0 radius n step eu
  unfold onOk at h ⊢
  revert h
  cases star st0 radius n step eu with
  | error e => exact fun _ => trivial
  | ok p => obtain ⟨tr, st'⟩ := p; exact fun h => ⟨h.1, h.2.1, h.2.2.1⟩

/-- Witness for C1 at the concrete call `star(150, 5, step=2)`. -/
theorem c1_closure_pose_restored_wit :
    3 ≤ 5 ∧ onOk (star st0c 150 5 (some 2) none) fun _ st' =>
      st'.position = st0c.position ∧ st'.heading = st0c.heading ∧
      st'.fullcircle = st0c.fullcircle :=
  ⟨by decide, c1_closure_pose_restored st0c 150 5 (some 2) none (by decide)⟩

/-- C5 counterexample: a caller that invokes the method with the pen up
gets the pen back *down* afterwards — the epilogue ends with an
unconditional `pendown()` (`star_polygon.py` line 180), so the pen flag
is not restored to the caller's value. -/
theorem c5_pen_state_cex :
    st0up.pendown = false ∧
    (finalState (star st0up 150 5 (some 2) none)).pendown = true := by
  exact ⟨rfl, rfl⟩

/-- C5 (amended): for every call with `n ≥ 3` that returns without
error, colour and fill state are left exactly as the caller set them,
but the pen is always down after the call returns (the epilogue forces
`pendown()`), regardless of the pen state the caller had set. -/
theorem c5_other_state (st0 : TState) (radius : ℝ) (n : ℕ) (step : Option ℤ)
    (eu : Option ℝ) (hn : 3 ≤ n) :
    onOk (star st0 radius n step eu) fun _ st' =>
      st'.color = st0.color ∧ st'.filling = st0.filling ∧ st'.pendown = true := by
  have h := star_ok_state st0 radius n step eu
  unfold onOk at h ⊢
  revert h
  cases star st0 radius n step eu with
  | error e => exact fun _ => trivial
  | ok p => obtain ⟨tr, st'⟩ := p; exact fun h => ⟨h.2.2.2.2.1, h.2.2.2.2.2, h.2.2.2.1⟩

/-- Witness for C5 (amended) at the concrete call `star(100, 36)`. -/
theorem c5_other_state_wit :
    3 ≤ 36 ∧ onOk (star st0c 100 36 none none) fun _ st' =>
      st'.color = st0c.color ∧ st'.filling = st0c.filling ∧ st'.pendown = true :=
  ⟨by decide, c5_other_state st0c 100 36 none none (by decide)⟩

/-- C2 counterexample: supplying both `step` and `edgelen` raises no
error at all — the call `star(150, 5, step=2, edgelen=50)` returns
successfully (the code has no `InvalidArguments` check; line 91 simply
discards `edgelen` when `step` is present). -/
theorem c2_both_supplied_no_error_cex :
    okB (star st0c 150 5 (some 2) (some 50)) = true := rfl

/-- C2 (amended): when both `step` and `edgelen` are supplied, the call
silently prefers `step`: it behaves exactly — same trace, same final
state, same errors — as the call with only `step` supplied, `edgelen`
being discarded. -/
theorem c2_both_supplied_step_precedence (st0 : TState) (radius : ℝ) (n : ℕ)
    (mz : ℤ) (v : ℝ) :
    star st0 radius n (some mz) (some v) = star st0 radius n (some mz) none := rfl

/-- C9 counterexample: on an `InvalidStep` failure the planner-touched
state is *not* exactly as before the call — the undo-buffer prologue
(`star_polygon.py` lines 73-75) runs before validation, so the failed
call `star(150, 5, step=-9)` on a cursor with an undo buffer leaves the
cumulate flag set. -/
theorem c9_failure_mutation_cex :
    st0u.undoCumulate = false ∧
    errOf (star st0u 150 5 (some (-9)) none) = some (.invalidStep 4) ∧
    (finalState (star st0u 150 5 (some (-9)) none)).undoCumulate = true := by
  exact ⟨rfl, rfl, rfl⟩

/-- C9 (amended): for every call with a negative step whose magnitude is
not in `[1, n-1]` (with `step < 0` this means `|step| ≥ n`), the call
fails with `InvalidStep` before any cursor *drawing* mutation: position,
heading, angle unit, pen state, colour, and fill state are exactly as
before the call — but the undo-buffer prologue has already run, so when
an undo buffer is present a sequence entry has been pushed and the
cumulate flag left set. -/
theorem c9_invalid_step_state (st0 : TState) (radius : ℝ) (n : ℕ) (eu : Option ℝ)
    (mz : ℤ) (hneg : mz < 0) (hbad : (n : ℤ) ≤ -mz) :
    ∃ stE, star st0 radius n (some mz) eu = .error (.invalidStep (n - 1), stE) ∧
      stE.position = st0.position ∧ stE.heading = st0.heading ∧
      stE.fullcircle = st0.fullcircle ∧ stE.pendown = st0.pendown ∧
      stE.color = st0.color ∧ stE.filling = st0.filling ∧
      stE.undoCumulate = (st0.hasUndobuffer || st0.undoCumulate) ∧
      stE.undoSeqCount = st0.undoSeqCount + (if st0.hasUndobuffer then 1 else 0) := by
  have hres : resolve radius n (some mz) eu = .error (.invalidStep (n - 1)) := by
    simp only [resolve]
    rw [if_neg (by omega), if_pos (Or.inr hbad)]
  refine ⟨(if st0.hasUndobuffer then [Cmd.undoPushSeq, Cmd.undoCumulate true] else []).foldl exec st0,
    by simp only [star, hres], ?_⟩
  by_cases hu : st0.hasUndobuffer <;> simp [hu, exec]

/-- Witness for C9 (amended) at the concrete call `star(150, 5, step=-9)`. -/
theorem c9_invalid_step_state_wit :
    (-9 : ℤ) < 0 ∧ (5 : ℤ) ≤ -(-9 : ℤ) ∧
    (∃ stE, star st0u 150 5 (some (-9)) none = .error (.invalidStep (5 - 1), stE) ∧
      stE.position = st0u.position ∧ stE.heading = st0u.heading ∧
      stE.fullcircle = st0u.fullcircle ∧ stE.pendown = st0u.pendown ∧
      stE.color = st0u.color ∧ stE.filling = st0u.filling ∧
      stE.undoCumulate = (st0u.hasUndobuffer || st0u.undoCumulate) ∧
      stE.undoSeqCount = st0u.undoSeqCount + (if st0u.hasUndobuffer then 1 else 0)) :=
  ⟨by decide, by decide, c9_invalid_step_state st0u 150 5 none (-9) (by decide) (by decide)⟩

/-! ## The hull-given minimum edge bound -/

/-- For `n ≥ 3` (indeed `n ≥ 2`) the angle `π/n` lies strictly between
`0` and `π`, so its sine is positive. -/
theorem sin_pi_div_pos (n : ℕ) (hn : 3 ≤ n) : 0 < Real.sin (Real.pi / n) :=
  Real.sin_pos_of_pos_of_lt_pi
    (div_pos Real.pi_pos (by exact_mod_cast (by omega : 0 < n)))
    (div_lt_self Real.pi_pos (by exact_mod_cast (by omega : 1 < n)))

/-- For a positive radius and `n ≥ 3`, a supplied edge length of at
least the minimum `s/2 = r·sin(π/n)` passes all three hull-given
checks: the edge-minimum bound, the zero-division guard (`v` is
positive since `s/2` is), and the `acos` domain guard (the quotient
`s/(2v)` lies in `(0, 1]`), so the resolver succeeds. -/
theorem resolveHullGiven_pos_ok (r : ℝ) (n : ℕ) (v : ℝ) (hr : 0 < r) (hn : 3 ≤ n)
    (hv : r * Real.sin (Real.pi / n) ≤ v) :
    ∃ th sg, resolveHullGiven r n v = .ok (.hull v th sg) := by
  have hsgn : (if r < 0 then (-1:ℝ) else 1) = 1 := if_neg (not_lt.mpr hr.le)
  have hsin : 0 < Real.sin (Real.pi / n) := sin_pi_div_pos n hn
  have hv0 : 0 < v := lt_of_lt_of_le (mul_pos hr hsin) hv
  have hs : 2 * ((1:ℝ) * r) * Real.sin (1 * (2 * Real.pi) / (n:ℝ) / 2)
      = 2 * (r * Real.sin (Real.pi / n)) := by
    rw [show (1 * (2 * Real.pi) / (n:ℝ) / 2 : ℝ) = Real.pi / n by ring]
    ring
  have hhalf2 : (2 * (r * Real.sin (Real.pi / n)) / 2 : ℝ)
      = r * Real.sin (Real.pi / n) := by ring
  have h2v : ¬((2:ℝ) * v = 0) := by
    have : (0:ℝ) < 2 * v := by linarith
    exact this.ne'
  have hdom : ¬(2 * (r * Real.sin (Real.pi / n)) / (2 * v) < -1 ∨
      1 < 2 * (r * Real.sin (Real.pi / n)) / (2 * v)) := by
    push_neg
    refine ⟨?_, ?_⟩
    · have h0 : (0:ℝ) ≤ 2 * (r * Real.sin (Real.pi / n)) / (2 * v) :=
        div_nonneg (by nlinarith [mul_pos hr hsin]) (by linarith)
      linarith
    · rw [div_le_one (by linarith)]
      linarith
  simp only [resolveHullGiven, hsgn]
  rw [hs, hhalf2, if_neg (not_lt.mpr hv), if_neg h2v, if_neg hdom]
  exact ⟨_, _, rfl⟩

/-- C4: a hull-given call with `r > 0`, `n ≥ 3` fails with
`EdgeTooShort` iff `u < s/2` where `s = 2·r·sin(π/n)`; it succeeds for
`u = s/2` and anything larger, and the error carries the computed
minimum `s/2`. -/
theorem c4_edge_too_short_iff (st0 : TState) (r : ℝ) (n : ℕ) (u : ℝ)
    (hr : 0 < r) (hn : 3 ≤ n) : EdgeCheckProp st0 r n u := by
  have hsgn : (if r < 0 then (-1:ℝ) else 1) = 1 := if_neg (not_lt.mpr hr.le)
  have hres0 : resolve r n none (some u) = resolveHullGiven r n u := rfl
  have hs : 2 * ((1:ℝ) * r) * Real.sin (1 * (2 * Real.pi) / (n:ℝ) / 2)
      = 2 * (r * Real.sin (Real.pi / n)) := by
    rw [show (1 * (2 * Real.pi) / (n:ℝ) / 2 : ℝ) = Real.pi / n by ring]
    ring
  have hhalf2 : (2 * (r * Real.sin (Real.pi / n)) / 2 : ℝ)
      = r * Real.sin (Real.pi / n) := by ring
  unfold EdgeCheckProp
  by_cases hlt : u < r * Real.sin (Real.pi / n)
  · have hres : resolve r n none (some u)
        = .error (.edgeTooShort (r * Real.sin (Real.pi / n))) := by
      rw [hres0]
      simp only [resolveHullGiven, hsgn]
      rw [hs, hhalf2, if_pos hlt]
    constructor
    · simp [star, hres, errOf, if_pos hlt]
    · intro hge; exact absurd hlt (not_lt.mpr hge)
  · obtain ⟨th, sg, hres1⟩ := resolveHullGiven_pos_ok r n u hr hn (not_lt.mp hlt)
    have hres : resolve r n none (some u) = .ok (.hull u th sg) :=
      hres0.trans hres1
    constructor
    · simp [star, hres, errOf, if_neg hlt]
    · intro _; simp [star, hres, okB]

/-- Witness for C4 at the concrete call `star(150, 7, edgelen=120)`. -/
theorem c4_edge_too_short_iff_wit :
    (0:ℝ) < 150 ∧ 3 ≤ 7 ∧ EdgeCheckProp st0c 150 7 120 :=
  ⟨by norm_num, by decide, c4_edge_too_short_iff st0c 150 7 120 (by norm_num) (by decide)⟩

/-! ## Internal-mode loop analysis -/

/-- The instrumented run tracks exactly the `exec`-semantics on its
state component. -/
theorem runCmd_st (ρ : Run) (c : Cmd) : (runCmd ρ c).st = exec ρ.st c := by
  cases c <;> simp [runCmd] <;> split <;> rfl

/-- Running `c` non-seam iterations from a pen-down run: the heading
advances by `c·gamma`, the position and the current-stretch sum gain the
chord displacement sum, `c` pen-down distances `t` are recorded, and no
stretch completes. -/
theorem chordBlock_run (gamma t : ℝ) : ∀ (c : ℕ) (ρ : Run), ρ.st.pendown = true →
    (chordBlock gamma t c).foldl runCmd ρ =
      { st := { ρ.st with
                heading := ρ.st.heading + c * gamma,
                position := ρ.st.position + geomDisp ρ.st.heading gamma t c,
                pendown := true },
        pd := ρ.pd ++ List.replicate c t,
        pdSum := ρ.pdSum + geomDisp ρ.st.heading gamma t c,
        stretches := ρ.stretches } := by
  intro c
  induction c with
  | zero =>
    intro ρ hpd
    cases ρ with
    | mk st pd pdSum stretches =>
      cases st
      simp only at hpd
      simp [chordBlock, geomDisp, hpd]
  | succ c ih =>
    intro ρ hpd
    have hsucc : geomDisp ρ.st.heading gamma t (c + 1) =
        geomDisp ρ.st.heading gamma t c +
          (t : ℂ) * Complex.exp (((ρ.st.heading + c * gamma + gamma : ℝ) : ℂ) * Complex.I) := by
      rw [geomDisp, geomDisp, Finset.sum_range_succ]
      congr 2
      push_cast
      ring
    rw [chordBlock, List.foldl_append, ih ρ hpd]
    simp only [chordIter, List.foldl_cons, List.foldl_nil, runCmd, exec, hpd, if_pos]
    simp only [Run.mk.injEq, TState.mk.injEq, hsucc, List.replicate_succ']
    refine ⟨⟨?_, ?_, trivial, trivial, trivial, trivial, trivial, trivial, trivial⟩,
      ?_, ?_, trivial⟩
    · rw [add_assoc]
    · push_cast; ring
    · rw [← List.append_assoc]
    · rw [add_assoc]

/-- Running one stellation-seam iteration from a pen-down run: the
heading advances by `2·beta`, the pen-up jump of length `s` moves the
position but is not recorded as pen-down, the current stretch sum is
emitted to `stretches` and restarts with the iteration's chord `t`. -/
theorem seamIter_run (beta s t : ℝ) (ρ : Run) (hpd : ρ.st.pendown = true) :
    (seamIter beta s t).foldl runCmd ρ =
      { st := { ρ.st with
                heading := ρ.st.heading + beta + beta,
                position := ρ.st.position +
                  (s : ℂ) * Complex.exp (((ρ.st.heading + beta : ℝ) : ℂ) * Complex.I) +
                  (t : ℂ) * Complex.exp (((ρ.st.heading + beta + beta : ℝ) : ℂ) * Complex.I),
                pendown := true },
        pd := ρ.pd ++ [t],
        pdSum := (t : ℂ) * Complex.exp (((ρ.st.heading + beta + beta : ℝ) : ℂ) * Complex.I),
        stretches := ρ.stretches ++ [ρ.pdSum] } := by
  simp [seamIter, runCmd, exec, hpd]

/-- The chord displacement sum factors as a geometric series in the
rotation `exp(i·gamma)`. -/
theorem geomDisp_eq (h gamma t : ℝ) (c : ℕ) :
    geomDisp h gamma t c =
      Complex.exp (((h + gamma : ℝ) : ℂ) * Complex.I) *
        ((t : ℂ) * ∑ k in Finset.range c,
          Complex.exp (((gamma : ℝ) : ℂ) * Complex.I) ^ k) := by
  rw [geomDisp, Finset.mul_sum, Finset.mul_sum]
  refine Finset.sum_congr rfl fun k _ => ?_
  have harg : (((h + (k + 1) * gamma : ℝ)) : ℂ) * Complex.I =
      ((h + gamma : ℝ) : ℂ) * Complex.I + (k : ℕ) * (((gamma : ℝ) : ℂ) * Complex.I) := by
    push_cast
    ring
  rw [harg, Complex.exp_add, Complex.exp_nat_mul]
  ring

/-- Key cancellation: the chord length `t = 2r·sin(gamma/2)` of
`{n/m}` times the geometric sum of the `n1 = n/gcd(n,m)` powers of the
rotation `exp(i·gamma)` (with `gamma = e·2π·m/n`, `e` the integer sign
of the radius) vanishes: either `exp(i·gamma)` is a nontrivial root of
unity of order dividing `n1` and the geometric series telescopes to
zero, or `gamma` is a whole number of turns and the chord length itself
is zero. -/
theorem chord_sum_zero (r : ℝ) (e : ℤ) (n m : ℕ) (hn : 0 < n) :
    ((2 * r * Real.sin ((e : ℝ) * (2 * Real.pi) / n * m / 2) : ℝ) : ℂ) *
      ∑ k in Finset.range (n / Nat.gcd n m),
        Complex.exp ((((e : ℝ) * (2 * Real.pi) / n * m : ℝ) : ℂ) * Complex.I) ^ k = 0 := by
  set γ : ℝ := (e : ℝ) * (2 * Real.pi) / n * m with hγ
  by_cases h1 : Complex.exp (((γ : ℝ) : ℂ) * Complex.I) = 1
  · obtain ⟨k, hk⟩ := Complex.exp_eq_one_iff.mp h1
    have hγk : γ = k * (2 * Real.pi) := by
      have hC : ((γ : ℝ) : ℂ) = ((k * (2 * Real.pi) : ℝ) : ℂ) := by
        apply mul_right_cancel₀ Complex.I_ne_zero
        rw [hk]
        push_cast
        ring
      exact_mod_cast hC
    have hsin : Real.sin (γ / 2) = 0 := by
      rw [hγk, show (k : ℝ) * (2 * Real.pi) / 2 = k * Real.pi by ring]
      exact Real.sin_int_mul_pi k
    rw [hsin]
    push_cast
    ring
  · rw [geom_sum_eq h1]
    set d := Nat.gcd n m with hdd
    set n1 := n / d with hn1d
    set m1 := m / d with hm1d
    have hd : 0 < d := Nat.gcd_pos_of_pos_left m hn
    have hn1 : 0 < n1 := Nat.div_pos (Nat.le_of_dvd hn (Nat.gcd_dvd_left n m)) hd
    have hnr : (n : ℝ) = (d : ℝ) * (n1 : ℝ) := by
      exact_mod_cast (Nat.mul_div_cancel' (Nat.gcd_dvd_left n m)).symm
    have hmr : (m : ℝ) = (d : ℝ) * (m1 : ℝ) := by
      exact_mod_cast (Nat.mul_div_cancel' (Nat.gcd_dvd_right n m)).symm
    have hdr : (d : ℝ) ≠ 0 := Nat.cast_ne_zero.mpr hd.ne'
    have hn1r : (n1 : ℝ) ≠ 0 := Nat.cast_ne_zero.mpr hn1.ne'
    have hxn : Complex.exp (((γ : ℝ) : ℂ) * Complex.I) ^ n1 = 1 := by
      rw [← Complex.exp_nat_mul]
      have harg : (n1 : ℝ) * γ = ((e * m1 : ℤ) : ℝ) * (2 * Real.pi) := by
        rw [hγ, hmr, hnr]
        push_cast
        field_simp
        ring
      have hargC : ((n1 : ℕ) : ℂ) * (((γ : ℝ) : ℂ) * Complex.I) =
          ((e * m1 : ℤ) : ℂ) * (2 * (Real.pi : ℂ) * Complex.I) := by
        have h2 := congrArg (fun x : ℝ => ((x : ℂ)) * Complex.I) harg
        simp only at h2
        push_cast at h2 ⊢
        linear_combination h2
      rw [hargC, Complex.exp_int_mul_two_pi_mul_I]
    rw [hxn]
    simp

/-- After a seam, one chord followed by the remaining `n1 - 1` chords of
the sub-polygon have zero net displacement. -/
theorem seam_tail_zero (h2 gamma t : ℝ) (n1 : ℕ) (hn1 : 0 < n1)
    (hKL : (t : ℂ) * ∑ k in Finset.range n1,
      Complex.exp (((gamma : ℝ) : ℂ) * Complex.I) ^ k = 0) :
    (t : ℂ) * Complex.exp (((h2 : ℝ) : ℂ) * Complex.I) + geomDisp h2 gamma t (n1 - 1) = 0 := by
  rw [geomDisp_eq]
  have hsplit : ((h2 + gamma : ℝ) : ℂ) * Complex.I =
      ((h2 : ℝ) : ℂ) * Complex.I + ((gamma : ℝ) : ℂ) * Complex.I := by
    push_cast
    ring
  rw [hsplit, Complex.exp_add]
  rw [show n1 = (n1 - 1) + 1 from (Nat.succ_pred_eq_of_pos hn1).symm, geom_sum_succ] at hKL
  linear_combination Complex.exp (((h2 : ℝ) : ℂ) * Complex.I) * hKL

/-- Within the first sub-polygon (`k ≤ n1` iterations) no iteration
takes the seam branch. -/
theorem internalLoopAux_eq_chordBlock (n1 : ℕ) (beta gamma s t : ℝ) :
    ∀ k, k ≤ n1 → internalLoopAux n1 beta gamma s t k = chordBlock gamma t k := by
  intro k
  induction k with
  | zero => intro _; rfl
  | succ k ih =>
    intro hk
    rw [internalLoopAux, chordBlock, ih (Nat.le_of_succ_le hk)]
    congr 1
    rw [loopIterCmds, if_neg]
    rintro ⟨hk0, hmod⟩
    rw [Nat.mod_eq_of_lt (Nat.lt_of_succ_le hk)] at hmod
    exact hk0 hmod

/-- For `j ≥ 1`, the iterations `j·n1 … j·n1+k-1` are one seam followed
by `k - 1` plain chords. -/
theorem internalLoopAux_seam_block (n1 : ℕ) (beta gamma s t : ℝ) (j : ℕ) (hj : 0 < j)
    (hn1 : 0 < n1) :
    ∀ k, 1 ≤ k → k ≤ n1 →
      internalLoopAux n1 beta gamma s t (j * n1 + k) =
        internalLoopAux n1 beta gamma s t (j * n1) ++
          (seamIter beta s t ++ chordBlock gamma t (k - 1)) := by
  intro k
  induction k with
  | zero => intro h; exact absurd h (by omega)
  | succ k ih =>
    intro _ hk1
    rcases Nat.eq_zero_or_pos k with hk0 | hkpos
    · subst hk0
      rw [internalLoopAux, loopIterCmds, if_pos ⟨by positivity, Nat.mul_mod_left j n1⟩]
      simp [chordBlock]
    · have hkle : k ≤ n1 := Nat.le_of_succ_le hk1
      have hklt : k < n1 := Nat.lt_of_succ_le hk1
      rw [show j * n1 + (k + 1) = (j * n1 + k) + 1 by omega, internalLoopAux,
        ih hkpos hkle, loopIterCmds, if_neg]
      · rw [show k + 1 - 1 = (k - 1) + 1 by omega, chordBlock]
        simp [List.append_assoc]
      · rintro ⟨_, hmod⟩
        rw [Nat.add_comm, Nat.add_mul_mod_self_right, Nat.mod_eq_of_lt hklt] at hmod
        omega

/-- Invariant at the sub-polygon boundaries of the internal-mode loop:
starting pen-down with an empty current stretch, after `j` blocks of
`n1` iterations the pen is down, the current stretch sum is again zero
(each sub-polygon closes), `j·n1` chords of length `t` have been
recorded, and the `j - 1` completed stretches all closed at zero. -/
theorem internalLoop_boundary_run (n1 : ℕ) (hn1 : 0 < n1) (beta gamma s t : ℝ)
    (hKL : (t : ℂ) * ∑ k in Finset.range n1,
      Complex.exp (((gamma : ℝ) : ℂ) * Complex.I) ^ k = 0) :
    ∀ (j : ℕ) (ρ : Run), ρ.st.pendown = true → ρ.pdSum = 0 →
      ((internalLoopAux n1 beta gamma s t (j * n1)).foldl runCmd ρ).st.pendown = true ∧
      ((internalLoopAux n1 beta gamma s t (j * n1)).foldl runCmd ρ).pdSum = 0 ∧
      ((internalLoopAux n1 beta gamma s t (j * n1)).foldl runCmd ρ).pd
        = ρ.pd ++ List.replicate (j * n1) t ∧
      ((internalLoopAux n1 beta gamma s t (j * n1)).foldl runCmd ρ).stretches
        = ρ.stretches ++ List.replicate (j - 1) (0 : ℂ) := by
  intro j
  induction j with
  | zero =>
    intro ρ hpd hs0
    simp [internalLoopAux, hpd, hs0]
  | succ j ih =>
    intro ρ hpd hs0
    rcases Nat.eq_zero_or_pos j with hj0 | hjpos
    · subst hj0
      rw [show (0 + 1) * n1 = n1 by omega,
        internalLoopAux_eq_chordBlock n1 beta gamma s t n1 le_rfl,
        chordBlock_run gamma t n1 ρ hpd]
      refine ⟨rfl, ?_, by simp, by simp⟩
      rw [hs0, geomDisp_eq, hKL]
      simp
    · rw [show (j + 1) * n1 = j * n1 + n1 by ring,
        internalLoopAux_seam_block n1 beta gamma s t j hjpos hn1 n1 hn1 le_rfl,
        List.foldl_append, List.foldl_append]
      obtain ⟨h1, h2, h3, h4⟩ := ih ρ hpd hs0
      set ρ1 := (internalLoopAux n1 beta gamma s t (j * n1)).foldl runCmd ρ with hρ1
      rw [seamIter_run beta s t ρ1 h1,
        chordBlock_run gamma t (n1 - 1) _ rfl]
      refine ⟨rfl, ?_, ?_, ?_⟩
      · exact seam_tail_zero (ρ1.st.heading + beta + beta) gamma t n1 hn1 hKL
      · rw [h3]
        simp only [List.append_assoc]
        rw [show List.replicate (j * n1) t ++ ([t] ++ List.replicate (n1 - 1) t)
            = List.replicate (j * n1) t ++ (List.replicate 1 t ++ List.replicate (n1 - 1) t)
          from by simp, ← List.replicate_add, ← List.replicate_add,
          show j * n1 + (1 + (n1 - 1)) = j * n1 + n1 by omega]
      · rw [h4, h2]
        simp only [List.append_assoc]
        rw [show List.replicate (j - 1) (0 : ℂ) ++ [(0 : ℂ)]
            = List.replicate (j - 1) (0 : ℂ) ++ List.replicate 1 (0 : ℂ) from by simp,
          ← List.replicate_add, show j - 1 + 1 = j + 1 - 1 by omega]

/-- The fill fix-up repositioning loop runs entirely pen-up: nothing is
recorded. -/
theorem fillBlock_run_penup (alpha s : ℝ) : ∀ (c : ℕ) (ρ : Run), ρ.st.pendown = false →
    ((fillBlock alpha s c).foldl runCmd ρ).st.pendown = false ∧
    ((fillBlock alpha s c).foldl runCmd ρ).pd = ρ.pd ∧
    ((fillBlock alpha s c).foldl runCmd ρ).pdSum = ρ.pdSum ∧
    ((fillBlock alpha s c).foldl runCmd ρ).stretches = ρ.stretches := by
  intro c
  induction c with
  | zero => intro ρ hpu; exact ⟨hpu, rfl, rfl, rfl⟩
  | succ c ih =>
    intro ρ hpu
    rw [fillBlock, List.foldl_append]
    obtain ⟨h1, h2, h3, h4⟩ := ih ρ hpu
    simp only [List.foldl_cons, List.foldl_nil, runCmd, exec, h1]
    simp only [Bool.false_eq_true, if_false]
    exact ⟨trivial, h2, h3, h4⟩

/-- The fill fix-up from a pen-down, zero-stretch run: it completes the
current (closed) stretch, moves pen-up, and lowers the pen again; the
recorded pen-down distances are untouched. -/
theorem fillFix_run (filling : Bool) (d : ℕ) (alpha beta delta s : ℝ) (ρ : Run)
    (hpd : ρ.st.pendown = true) (hs0 : ρ.pdSum = 0) :
    ((fillFix filling d alpha beta delta s).foldl runCmd ρ).st.pendown = true ∧
    ((fillFix filling d alpha beta delta s).foldl runCmd ρ).pdSum = 0 ∧
    ((fillFix filling d alpha beta delta s).foldl runCmd ρ).pd = ρ.pd ∧
    ((fillFix filling d alpha beta delta s).foldl runCmd ρ).stretches
      = ρ.stretches ++ (if filling then [(0 : ℂ)] else []) := by
  cases filling with
  | false => simpa [fillFix] using ⟨hpd, hs0⟩
  | true =>
    rw [show fillFix true d alpha beta delta s
        = .penup :: .rotate (beta + delta) :: (fillBlock alpha s (d - 1) ++ [Cmd.pendown])
      from rfl]
    rw [List.foldl_cons, List.foldl_cons, List.foldl_append, List.foldl_cons,
      List.foldl_nil]
    have hmid : (runCmd (runCmd ρ .penup) (.rotate (beta + delta))).st.pendown = false := by
      simp [runCmd, exec, hpd]
    obtain ⟨h1, h2, h3, h4⟩ := fillBlock_run_penup alpha s (d - 1) _ hmid
    have hproj : ∀ ρ2 : Run, runCmd ρ2 .pendown
        = { ρ2 with st := { ρ2.st with pendown := true } } := fun _ => rfl
    simp only [hproj, h2, h3, h4]
    simp [runCmd, exec, hpd, hs0]

/-- The closing reposition from a pen-down, zero-stretch run: it
completes the final (closed) stretch and records nothing else. -/
theorem closeTrace_run (p : ℂ) (h f : ℝ) (ρ : Run) (hpd : ρ.st.pendown = true)
    (hs0 : ρ.pdSum = 0) :
    ((closeTrace p h f).foldl runCmd ρ).st.pendown = true ∧
    ((closeTrace p h f).foldl runCmd ρ).pdSum = 0 ∧
    ((closeTrace p h f).foldl runCmd ρ).pd = ρ.pd ∧
    ((closeTrace p h f).foldl runCmd ρ).stretches = ρ.stretches ++ [(0 : ℂ)] := by
  simp [closeTrace, runCmd, exec, hpd, hs0]

/-- Seam iterations are the only source of a `forward` directly after a
`penup`, so each contributes exactly one pen-lift jump. -/
theorem jumpCount_seam (beta s t : ℝ) (rest : List Cmd) :
    jumpCount (seamIter beta s t ++ rest) = jumpCount rest + 1 := rfl

/-- Plain chord iterations contribute no pen-lift jump. -/
theorem jumpCount_chordBlock (gamma t : ℝ) : ∀ (c : ℕ) (rest : List Cmd),
    jumpCount (chordBlock gamma t c ++ rest) = jumpCount rest := by
  intro c
  induction c with
  | zero => intro rest; rfl
  | succ c ih =>
    intro rest
    rw [chordBlock, List.append_assoc, ih]
    rfl

/-- Pen-lift jumps at the sub-polygon boundaries: the first `j` blocks
of the internal loop contain exactly `j - 1` of them. -/
theorem jumpCount_boundary (n1 : ℕ) (hn1 : 0 < n1) (beta gamma s t : ℝ) :
    ∀ (j : ℕ) (rest : List Cmd),
      jumpCount (internalLoopAux n1 beta gamma s t (j * n1) ++ rest)
        = (j - 1) + jumpCount rest := by
  intro j
  induction j with
  | zero => intro rest; simp [internalLoopAux]
  | succ j ih =>
    intro rest
    rcases Nat.eq_zero_or_pos j with hj0 | hjpos
    · subst hj0
      rw [show (0 + 1) * n1 = n1 by omega,
        internalLoopAux_eq_chordBlock n1 beta gamma s t n1 le_rfl,
        jumpCount_chordBlock]
      simp
    · rw [show (j + 1) * n1 = j * n1 + n1 by ring,
        internalLoopAux_seam_block n1 beta gamma s t j hjpos hn1 n1 hn1 le_rfl,
        List.append_assoc, ih, List.append_assoc, jumpCount_seam,
        jumpCount_chordBlock]
      omega

/-- The fill fix-up contributes no pen-lift jump (its `penup` is
followed by a `rotate`, and its forwards are preceded by rotates). -/
theorem jumpCount_fillBlock (alpha s : ℝ) : ∀ (c : ℕ) (rest : List Cmd),
    jumpCount (fillBlock alpha s c ++ rest) = jumpCount rest := by
  intro c
  induction c with
  | zero => intro rest; rfl
  | succ c ih =>
    intro rest
    rw [fillBlock, List.append_assoc, ih]
    rfl

/-- Neither branch of the fill fix-up contributes a pen-lift jump. -/
theorem jumpCount_fillFix (filling : Bool) (d : ℕ) (alpha beta delta s : ℝ)
    (rest : List Cmd) :
    jumpCount (fillFix filling d alpha beta delta s ++ rest) = jumpCount rest := by
  cases filling with
  | false => rfl
  | true =>
    rw [show fillFix true d alpha beta delta s ++ rest
        = .penup :: .rotate (beta + delta) :: (fillBlock alpha s (d - 1) ++ ([Cmd.pendown] ++ rest))
      from by simp [fillFix]]
    rw [show jumpCount (.penup :: .rotate (beta + delta)
          :: (fillBlock alpha s (d - 1) ++ ([Cmd.pendown] ++ rest)))
        = jumpCount (fillBlock alpha s (d - 1) ++ ([Cmd.pendown] ++ rest)) from rfl,
      jumpCount_fillBlock]
    rfl

/-- The resolver `resolveInternal` spelled out. -/
theorem resolveInternal_eq (r : ℝ) (n m : ℕ) :
    resolveInternal r n m =
      .internal m ((if r < 0 then (-1 : ℝ) else 1) * (2 * Real.pi) / n)
        ((if r < 0 then (-1 : ℝ) else 1) * (2 * Real.pi) / n * ((m : ℝ) + 1) / 2)
        ((if r < 0 then (-1 : ℝ) else 1) * (2 * Real.pi) / n * m)
        ((if r < 0 then (-1 : ℝ) else 1) * ((n : ℝ) - 2) / n * Real.pi)
        (2 * r * Real.sin ((if r < 0 then (-1 : ℝ) else 1) * (2 * Real.pi) / n / 2))
        (tvalue r n m) := rfl

theorem jumpCount_rotate (a : ℝ) (l : List Cmd) :
    jumpCount (.rotate a :: l) = jumpCount l := rfl

theorem jumpCount_radians (l : List Cmd) :
    jumpCount (.radiansMode :: l) = jumpCount l := rfl

theorem jumpCount_undoPush (l : List Cmd) :
    jumpCount (.undoPushSeq :: l) = jumpCount l := rfl

theorem jumpCount_undoCum (b : Bool) (l : List Cmd) :
    jumpCount (.undoCumulate b :: l) = jumpCount l := rfl

theorem jumpCount_close (p : ℂ) (h f : ℝ) (l : List Cmd) :
    jumpCount (closeTrace p h f ++ l) = jumpCount l := rfl

/-- The whole internal-mode drawing body (main loop then fill fix-up)
from a pen-down, zero-stretch run: it records the `n` chords of length
`t`, every completed stretch closes at zero, and the current stretch is
again closed at the end. -/
theorem internal_body_run (n mm : ℕ) (hn : 0 < n) (filling : Bool)
    (alpha beta gamma delta s t : ℝ)
    (hKL : (t : ℂ) * ∑ k in Finset.range (n / Nat.gcd n mm),
      Complex.exp (((gamma : ℝ) : ℂ) * Complex.I) ^ k = 0)
    (ρ : Run) (hpd : ρ.st.pendown = true) (hs0 : ρ.pdSum = 0) :
    ((internalLoopAux (n / Nat.gcd n mm) beta gamma s t n
        ++ fillFix filling (Nat.gcd n mm) alpha beta delta s).foldl runCmd ρ).st.pendown
      = true ∧
    ((internalLoopAux (n / Nat.gcd n mm) beta gamma s t n
        ++ fillFix filling (Nat.gcd n mm) alpha beta delta s).foldl runCmd ρ).pdSum = 0 ∧
    ((internalLoopAux (n / Nat.gcd n mm) beta gamma s t n
        ++ fillFix filling (Nat.gcd n mm) alpha beta delta s).foldl runCmd ρ).pd
      = ρ.pd ++ List.replicate n t ∧
    ((internalLoopAux (n / Nat.gcd n mm) beta gamma s t n
        ++ fillFix filling (Nat.gcd n mm) alpha beta delta s).foldl runCmd ρ).stretches
      = ρ.stretches ++ (List.replicate (Nat.gcd n mm - 1) (0 : ℂ)
          ++ (if filling then [(0 : ℂ)] else [])) := by
  have hd : 0 < Nat.gcd n mm := Nat.gcd_pos_of_pos_left mm hn
  have hn1 : 0 < n / Nat.gcd n mm :=
    Nat.div_pos (Nat.le_of_dvd hn (Nat.gcd_dvd_left n mm)) hd
  have hnd : n = Nat.gcd n mm * (n / Nat.gcd n mm) :=
    (Nat.mul_div_cancel' (Nat.gcd_dvd_left n mm)).symm
  rw [List.foldl_append]
  rw [show internalLoopAux (n / Nat.gcd n mm) beta gamma s t n
      = internalLoopAux (n / Nat.gcd n mm) beta gamma s t
          (Nat.gcd n mm * (n / Nat.gcd n mm)) from by rw [← hnd]]
  obtain ⟨h1, h2, h3, h4⟩ :=
    internalLoop_boundary_run (n / Nat.gcd n mm) hn1 beta gamma s t hKL
      (Nat.gcd n mm) ρ hpd hs0
  obtain ⟨g1, g2, g3, g4⟩ :=
    fillFix_run filling (Nat.gcd n mm) alpha beta delta s _ h1 h2
  refine ⟨g1, g2, ?_, ?_⟩
  · rw [g3, h3, ← hnd]
  · rw [g4, h4, List.append_assoc]

/-- The undo-buffer prologue leaves the instrumentation untouched. -/
theorem run_pre_fields (st0 : TState) :
    ((if st0.hasUndobuffer then [Cmd.undoPushSeq, Cmd.undoCumulate true]
        else ([] : List Cmd)).foldl runCmd
      { st := st0, pd := [], pdSum := 0, stretches := [] }).st.pendown = st0.pendown ∧
    ((if st0.hasUndobuffer then [Cmd.undoPushSeq, Cmd.undoCumulate true]
        else ([] : List Cmd)).foldl runCmd
      { st := st0, pd := [], pdSum := 0, stretches := [] }).pdSum = 0 ∧
    ((if st0.hasUndobuffer then [Cmd.undoPushSeq, Cmd.undoCumulate true]
        else ([] : List Cmd)).foldl runCmd
      { st := st0, pd := [], pdSum := 0, stretches := [] }).pd = [] ∧
    ((if st0.hasUndobuffer then [Cmd.undoPushSeq, Cmd.undoCumulate true]
        else ([] : List Cmd)).foldl runCmd
      { st := st0, pd := [], pdSum := 0, stretches := [] }).stretches = [] := by
  by_cases hu : st0.hasUndobuffer <;> simp [hu, runCmd, exec]

/-- The undo-buffer prologue contains no pen-lift jump. -/
theorem jumpCount_pre (st0 : TState) (l : List Cmd) :
    jumpCount ((if st0.hasUndobuffer then [Cmd.undoPushSeq, Cmd.undoCumulate true]
      else ([] : List Cmd)) ++ l) = jumpCount l := by
  by_cases hu : st0.hasUndobuffer <;> simp only [hu, if_true, if_false] <;> rfl

/-- The undo-buffer epilogue contains no pen-lift jump. -/
theorem jumpCount_post (st0 : TState) :
    jumpCount (if st0.hasUndobuffer then [Cmd.undoCumulate false] else ([] : List Cmd)) = 0 := by
  by_cases hu : st0.hasUndobuffer <;> simp only [hu, if_true, if_false] <;> rfl

/-- The undo-buffer epilogue leaves the instrumentation untouched. -/
theorem run_post_fields (st0 : TState) (ρ : Run) :
    ((if st0.hasUndobuffer then [Cmd.undoCumulate false]
        else ([] : List Cmd)).foldl runCmd ρ).pd = ρ.pd ∧
    ((if st0.hasUndobuffer then [Cmd.undoCumulate false]
        else ([] : List Cmd)).foldl runCmd ρ).pdSum = ρ.pdSum ∧
    ((if st0.hasUndobuffer then [Cmd.undoCumulate false]
        else ([] : List Cmd)).foldl runCmd ρ).stretches = ρ.stretches := by
  by_cases hu : st0.hasUndobuffer <;> simp [hu, runCmd, exec]

/-- Full analysis of the internal-mode trace exactly as `star` emits it,
with the geometric constants abstracted: from a pen-down cursor it
records exactly `n = d·n1` pen-down chords of length `t`, every
completed pen-down stretch has zero net displacement, the final stretch
is closed too, and there are exactly `d - 1` pen-lift jumps. -/
theorem internal_full_run (st0 : TState) (alpha beta gamma delta s t : ℝ)
    (n d n1 : ℕ) (hn1 : 0 < n1) (hnd : n = d * n1) (hpen : st0.pendown = true)
    (hKL : (t : ℂ) * ∑ k in Finset.range n1,
      Complex.exp (((gamma : ℝ) : ℂ) * Complex.I) ^ k = 0) :
    (runTrace st0 ((if st0.hasUndobuffer then [Cmd.undoPushSeq, Cmd.undoCumulate true]
        else ([] : List Cmd))
        ++ Cmd.radiansMode :: ((Cmd.rotate (-(gamma / 2))
            :: (internalLoopAux n1 beta gamma s t n
              ++ fillFix st0.filling d alpha beta delta s))
          ++ closeTrace st0.position st0.heading st0.fullcircle
          ++ (if st0.hasUndobuffer then [Cmd.undoCumulate false]
            else ([] : List Cmd))))).pd = List.replicate n t ∧
    (runTrace st0 ((if st0.hasUndobuffer then [Cmd.undoPushSeq, Cmd.undoCumulate true]
        else ([] : List Cmd))
        ++ Cmd.radiansMode :: ((Cmd.rotate (-(gamma / 2))
            :: (internalLoopAux n1 beta gamma s t n
              ++ fillFix st0.filling d alpha beta delta s))
          ++ closeTrace st0.position st0.heading st0.fullcircle
          ++ (if st0.hasUndobuffer then [Cmd.undoCumulate false]
            else ([] : List Cmd))))).pdSum = 0 ∧
    (∀ z ∈ (runTrace st0 ((if st0.hasUndobuffer
        then [Cmd.undoPushSeq, Cmd.undoCumulate true] else ([] : List Cmd))
        ++ Cmd.radiansMode :: ((Cmd.rotate (-(gamma / 2))
            :: (internalLoopAux n1 beta gamma s t n
              ++ fillFix st0.filling d alpha beta delta s))
          ++ closeTrace st0.position st0.heading st0.fullcircle
          ++ (if st0.hasUndobuffer then [Cmd.undoCumulate false]
            else ([] : List Cmd))))).stretches, z = 0) ∧
    jumpCount ((if st0.hasUndobuffer then [Cmd.undoPushSeq, Cmd.undoCumulate true]
        else ([] : List Cmd))
        ++ Cmd.radiansMode :: ((Cmd.rotate (-(gamma / 2))
            :: (internalLoopAux n1 beta gamma s t n
              ++ fillFix st0.filling d alpha beta delta s))
          ++ closeTrace st0.position st0.heading st0.fullcircle
          ++ (if st0.hasUndobuffer then [Cmd.undoCumulate false]
            else ([] : List Cmd)))) = d - 1 := by
  unfold runTrace
  simp only [List.cons_append, List.append_assoc]
  rw [hnd]
  obtain ⟨p1, p2, p3, p4⟩ := run_pre_fields st0
  rw [List.foldl_append, List.foldl_cons, List.foldl_cons, List.foldl_append,
    List.foldl_append, List.foldl_append]
  have hstart_pd : ((runCmd (runCmd ((if st0.hasUndobuffer
      then [Cmd.undoPushSeq, Cmd.undoCumulate true] else ([] : List Cmd)).foldl runCmd
        { st := st0, pd := [], pdSum := 0, stretches := [] }) Cmd.radiansMode)
      (Cmd.rotate (-(gamma / 2))))).st.pendown = true := p1.trans hpen
  have hstart_sum : ((runCmd (runCmd ((if st0.hasUndobuffer
      then [Cmd.undoPushSeq, Cmd.undoCumulate true] else ([] : List Cmd)).foldl runCmd
        { st := st0, pd := [], pdSum := 0, stretches := [] }) Cmd.radiansMode)
      (Cmd.rotate (-(gamma / 2))))).pd = [] := p3
  have hstart_pd2 : ((runCmd (runCmd ((if st0.hasUndobuffer
      then [Cmd.undoPushSeq, Cmd.undoCumulate true] else ([] : List Cmd)).foldl runCmd
        { st := st0, pd := [], pdSum := 0, stretches := [] }) Cmd.radiansMode)
      (Cmd.rotate (-(gamma / 2))))).pdSum = 0 := p2
  have hstart_str : ((runCmd (runCmd ((if st0.hasUndobuffer
      then [Cmd.undoPushSeq, Cmd.undoCumulate true] else ([] : List Cmd)).foldl runCmd
        { st := st0, pd := [], pdSum := 0, stretches := [] }) Cmd.radiansMode)
      (Cmd.rotate (-(gamma / 2))))).stretches = [] := p4
  obtain ⟨h1, h2, h3, h4⟩ :=
    internalLoop_boundary_run n1 hn1 beta gamma s t hKL d _ hstart_pd hstart_pd2
  obtain ⟨g1, g2, g3, g4⟩ := fillFix_run st0.filling d alpha beta delta s _ h1 h2
  obtain ⟨c1, c2, c3, c4⟩ :=
    closeTrace_run st0.position st0.heading st0.fullcircle _ g1 g2
  obtain ⟨q1, q2, q3⟩ := run_post_fields st0 _
  refine ⟨?_, ?_, ?_, ?_⟩
  · rw [q1, c3, g3, h3, hstart_sum, List.nil_append]
  · rw [q2, c2]
  · intro z hz
    rw [q3, c4, g4, h4, hstart_str, List.nil_append] at hz
    simp only [List.mem_append, List.mem_replicate, List.mem_singleton] at hz
    rcases hz with (hz | hz) | hz
    · exact hz.2
    · cases hfill : st0.filling <;> rw [hfill] at hz <;> simp at hz
      exact hz
    · exact hz
  · rw [jumpCount_pre st0, jumpCount_radians, jumpCount_rotate,
      jumpCount_boundary n1 hn1 beta gamma s t d, jumpCount_fillFix,
      jumpCount_close, jumpCount_post st0]
    omega

/-- Full analysis of a successful internal-mode call
`star(radius, n, step = mm)` from a pen-down cursor: the trace records
exactly `n` pen-down chords of length `t = tvalue radius n mm`, every
pen-down stretch has zero net displacement (each of the `gcd(n, mm)`
sub-polygons closes), and there are exactly `gcd(n, mm) - 1` pen-lift
jumps. -/
theorem star_internal_run (st0 : TState) (radius : ℝ) (n mm : ℕ) (hn : 0 < n)
    (hpen : st0.pendown = true) (tr : List Cmd) (st' : TState)
    (hok : star st0 radius n (some (mm : ℤ)) none = .ok (tr, st')) :
    (runTrace st0 tr).pd = List.replicate n (tvalue radius n mm) ∧
    (runTrace st0 tr).pdSum = 0 ∧
    (∀ z ∈ (runTrace st0 tr).stretches, z = 0) ∧
    jumpCount tr = Nat.gcd n mm - 1 := by
  have hres : resolve radius n (some (mm : ℤ)) none = .ok (resolveInternal radius n mm) := by
    simp only [resolve, if_pos (Int.natCast_nonneg mm), Int.toNat_natCast]
  simp only [star, hres] at hok
  rw [Except.ok.injEq, Prod.mk.injEq] at hok
  obtain ⟨htr, -⟩ := hok
  subst htr
  have hd : 0 < Nat.gcd n mm := Nat.gcd_pos_of_pos_left mm hn
  have hn1 : 0 < n / Nat.gcd n mm :=
    Nat.div_pos (Nat.le_of_dvd hn (Nat.gcd_dvd_left n mm)) hd
  have hnd : n = Nat.gcd n mm * (n / Nat.gcd n mm) :=
    (Nat.mul_div_cancel' (Nat.gcd_dvd_left n mm)).symm
  have hKL : ((tvalue radius n mm : ℝ) : ℂ) * ∑ k in Finset.range (n / Nat.gcd n mm),
      Complex.exp ((((if radius < 0 then (-1 : ℝ) else 1) * (2 * Real.pi) / n * mm : ℝ) : ℂ)
        * Complex.I) ^ k = 0 := by
    have hsgn : (if radius < 0 then (-1 : ℝ) else 1)
        = (((if radius < 0 then (-1 : ℤ) else 1) : ℤ) : ℝ) := by split <;> simp
    unfold tvalue
    rw [hsgn]
    exact chord_sum_zero radius (if radius < 0 then (-1 : ℤ) else 1) n mm hn
  simp only [resolveInternal_eq, drawBody]
  exact internal_full_run st0 _ _ _ _ _ (tvalue radius n mm) n (Nat.gcd n mm)
    (n / Nat.gcd n mm) hn1 hnd hpen hKL

/-! ## Claims about the internal-mode trace -/

/-- C3 counterexample: `star(250, 6, step=2)` (hexagram, `d = 2`) emits
exactly **1** pen-lift jump segment, not 2: the seam branch fires only
at `i = 3` (the single nonzero multiple of `n1 = 3` below 6). -/
theorem c3_hexagram_two_jumps_cex :
    jumpCount (okTrace (star st0c 250 6 (some 2) none)) ≠ 2 ∧
    jumpCount (okTrace (star st0c 250 6 (some 2) none)) = 1 := by
  have h : jumpCount (okTrace (star st0c 250 6 (some 2) none)) = 1 := rfl
  exact ⟨by rw [h]; omega, h⟩

/-- C3 (amended): `star(250, 6, step=2)` succeeds and its path contains
exactly `d - 1 = gcd(6,2) - 1 = 1` pen-lift jump segment at the single
stellation seam between the two triangles. -/
theorem c3_hexagram_one_jump :
    okB (star st0c 250 6 (some 2) none) = true ∧
    jumpCount (okTrace (star st0c 250 6 (some 2) none)) = Nat.gcd 6 2 - 1 := by
  exact ⟨rfl, rfl⟩

/-- C6: for every pen-down call `star(r, n, step=mm)` with `mm ≥ 1` and
`d = gcd(n, mm) > 1`, the pen-down trace consists of exactly `d` closed
sub-polygons of `n/d` chords of equal length `t`, with total pen-down
forward distance `n·|t| = d·((n/d)·|t|)` (seam jumps are pen-up and
excluded). -/
theorem c6_stellation_decomposition (st0 : TState) (r : ℝ) (n mm : ℕ)
    (hn : 3 ≤ n) (hm : 1 ≤ mm) (hd : 2 ≤ Nat.gcd n mm)
    (hpen : st0.pendown = true) :
    StellationProp st0 r n mm := by
  have hres : resolve r n (some (mm : ℤ)) none = .ok (resolveInternal r n mm) := by
    simp only [resolve, if_pos (Int.natCast_nonneg mm), Int.toNat_natCast]
  constructor
  · simp [star, hres, okB]
  · intro tr st' hok
    obtain ⟨h1, h2, h3, h4⟩ := star_internal_run st0 r n mm (by omega) hpen tr st' hok
    refine ⟨h1, h4, h2, h3, ?_, ?_⟩
    · rw [h1, List.map_replicate, List.sum_replicate, nsmul_eq_mul]
    · have hcast : (Nat.gcd n mm : ℝ) * ((n / Nat.gcd n mm : ℕ) : ℝ) = (n : ℝ) := by
        exact_mod_cast Nat.mul_div_cancel' (Nat.gcd_dvd_left n mm)
      rw [← hcast]
      ring

/-- Witness for C6 at the hexagram call `star(250, 6, step=2)`. -/
theorem c6_stellation_decomposition_wit :
    3 ≤ 6 ∧ 1 ≤ 2 ∧ 2 ≤ Nat.gcd 6 2 ∧ st0c.pendown = true ∧
    StellationProp st0c 250 6 2 :=
  ⟨by decide, by decide, by decide, rfl,
    c6_stellation_decomposition st0c 250 6 2 (by decide) (by decide) (by decide) rfl⟩

/-- C10: for every pen-down call with `n ≥ 3` and `step = 0`, the call
raises nothing and runs to completion with `gamma = 0`, `t = 0`,
`d = n`, `n1 = 1`, every loop iteration after the first a seam jump of
length `s`, and the cursor pose restored at the end. -/
theorem c10_step_zero (st0 : TState) (r : ℝ) (n : ℕ) (hn : 3 ≤ n)
    (hpen : st0.pendown = true) : StepZeroProp st0 r n := by
  have hres : resolve r n (some 0) none = .ok (resolveInternal r n 0) := by
    simp only [resolve, if_pos (le_refl (0 : ℤ))]
    rfl
  refine ⟨by simp [star, hres, okB], ?_, ?_⟩
  · refine ⟨(if r < 0 then (-1 : ℝ) else 1) * (2 * Real.pi) / n,
      (if r < 0 then (-1 : ℝ) else 1) * (2 * Real.pi) / n * ((0 : ℝ) + 1) / 2,
      (if r < 0 then (-1 : ℝ) else 1) * ((n : ℝ) - 2) / n * Real.pi,
      2 * r * Real.sin ((if r < 0 then (-1 : ℝ) else 1) * (2 * Real.pi) / n / 2), ?_⟩
    rw [hres, resolveInternal_eq]
    unfold tvalue
    norm_num
  · intro tr st' hok
    have hok' : star st0 r n (some ((0 : ℕ) : ℤ)) none = .ok (tr, st') := by
      exact_mod_cast hok
    obtain ⟨-, -, -, h4⟩ := star_internal_run st0 r n 0 (by omega) hpen tr st' hok'
    have hst := star_ok_state st0 r n (some 0) none
    rw [hok] at hst
    simp only [onOk] at hst
    exact ⟨hst.1, hst.2.1, by rw [h4, Nat.gcd_zero_right]⟩

/-- Witness for C10 at the concrete call `star(150, 5, step=0)`. -/
theorem c10_step_zero_wit :
    3 ≤ 5 ∧ st0c.pendown = true ∧ StepZeroProp st0c 150 5 :=
  ⟨by decide, rfl, c10_step_zero st0c 150 5 (by decide) rfl⟩

/-! ## Hull-mode analysis -/

/-- The map `fwdDists` distributes over concatenation. -/
theorem fwdDists_append (l1 l2 : List Cmd) :
    fwdDists (l1 ++ l2) = fwdDists l1 ++ fwdDists l2 := by
  simp [fwdDists, List.filterMap_append]

/-- The hull loop's forward moves: `2c` moves of `u` each, and nothing
else. -/
theorem fwdDists_hullLoopAux (u theta sigma : ℝ) : ∀ c : ℕ,
    fwdDists (hullLoopAux u theta sigma c) = List.replicate (2 * c) u := by
  intro c
  induction c with
  | zero => rfl
  | succ c ih =>
    rw [hullLoopAux, fwdDists_append, ih,
      show 2 * (c + 1) = 2 * c + 2 by ring, List.replicate_add]
    rfl

/-- Running the hull loop from a pen-down cursor records `2c` pen-down
distances `u` and leaves the pen down. -/
theorem hullLoopAux_run_pd (u theta sigma : ℝ) : ∀ (c : ℕ) (ρ : Run),
    ρ.st.pendown = true →
    ((hullLoopAux u theta sigma c).foldl runCmd ρ).pd
      = ρ.pd ++ List.replicate (2 * c) u ∧
    ((hullLoopAux u theta sigma c).foldl runCmd ρ).st.pendown = true := by
  intro c
  induction c with
  | zero => intro ρ hpd; exact ⟨by simp [hullLoopAux], hpd⟩
  | succ c ih =>
    intro ρ hpd
    rw [hullLoopAux, List.foldl_append]
    obtain ⟨h1, h2⟩ := ih ρ hpd
    simp only [List.foldl_cons, List.foldl_nil, runCmd, exec, h2, if_pos]
    refine ⟨?_, trivial⟩
    simp only [h1]
    rw [show 2 * (c + 1) = 2 * c + 2 by ring, List.replicate_add]
    simp [List.append_assoc, List.replicate_succ]

/-- The closing reposition never records a forward move. -/
theorem closeTrace_run_pd (p : ℂ) (h f : ℝ) (ρ : Run) :
    ((closeTrace p h f).foldl runCmd ρ).pd = ρ.pd := by
  by_cases hp : ρ.st.pendown <;> simp [closeTrace, runCmd, exec, hp]

/-- Full analysis of the hull-mode trace exactly as `star` emits it:
`2n` forward moves, all of distance `u`, all pen-down (from a pen-down
cursor), and no other forward move anywhere in the trace. -/
theorem hull_full_run (st0 : TState) (u theta sigma : ℝ) (n : ℕ)
    (hpen : st0.pendown = true) :
    fwdDists ((if st0.hasUndobuffer then [Cmd.undoPushSeq, Cmd.undoCumulate true]
        else ([] : List Cmd))
        ++ Cmd.radiansMode :: ((Cmd.rotate ((Real.pi - theta) / 2)
            :: hullLoopAux u theta sigma n)
          ++ closeTrace st0.position st0.heading st0.fullcircle
          ++ (if st0.hasUndobuffer then [Cmd.undoCumulate false]
            else ([] : List Cmd)))) = List.replicate (2 * n) u ∧
    (runTrace st0 ((if st0.hasUndobuffer then [Cmd.undoPushSeq, Cmd.undoCumulate true]
        else ([] : List Cmd))
        ++ Cmd.radiansMode :: ((Cmd.rotate ((Real.pi - theta) / 2)
            :: hullLoopAux u theta sigma n)
          ++ closeTrace st0.position st0.heading st0.fullcircle
          ++ (if st0.hasUndobuffer then [Cmd.undoCumulate false]
            else ([] : List Cmd))))).pd = List.replicate (2 * n) u := by
  have hcons1 : ∀ l : List Cmd, fwdDists (.radiansMode :: l) = fwdDists l := fun _ => rfl
  have hcons2 : ∀ (a : ℝ) (l : List Cmd), fwdDists (.rotate a :: l) = fwdDists l :=
    fun _ _ => rfl
  constructor
  · simp only [List.cons_append, List.append_assoc]
    have h1 : fwdDists (closeTrace st0.position st0.heading st0.fullcircle) = [] := rfl
    have h2 : fwdDists (if st0.hasUndobuffer then [Cmd.undoCumulate false]
        else ([] : List Cmd)) = [] := by
      by_cases hu : st0.hasUndobuffer <;> simp only [hu, if_true, if_false] <;> rfl
    have h3 : fwdDists (if st0.hasUndobuffer then [Cmd.undoPushSeq, Cmd.undoCumulate true]
        else ([] : List Cmd)) = [] := by
      by_cases hu : st0.hasUndobuffer <;> simp only [hu, if_true, if_false] <;> rfl
    rw [fwdDists_append, h3, List.nil_append, hcons1, hcons2, fwdDists_append,
      fwdDists_hullLoopAux, fwdDists_append, h1, h2]
    simp
  · unfold runTrace
    simp only [List.cons_append, List.append_assoc]
    rw [List.foldl_append, List.foldl_cons, List.foldl_cons, List.foldl_append,
      List.foldl_append]
    obtain ⟨p1, p2, p3, p4⟩ := run_pre_fields st0
    have hstart_pd : ((runCmd (runCmd ((if st0.hasUndobuffer
        then [Cmd.undoPushSeq, Cmd.undoCumulate true] else ([] : List Cmd)).foldl runCmd
          { st := st0, pd := [], pdSum := 0, stretches := [] }) Cmd.radiansMode)
        (Cmd.rotate ((Real.pi - theta) / 2)))).st.pendown = true := p1.trans hpen
    have hstart_pdl : ((runCmd (runCmd ((if st0.hasUndobuffer
        then [Cmd.undoPushSeq, Cmd.undoCumulate true] else ([] : List Cmd)).foldl runCmd
          { st := st0, pd := [], pdSum := 0, stretches := [] }) Cmd.radiansMode)
        (Cmd.rotate ((Real.pi - theta) / 2)))).pd = [] := p3
    obtain ⟨h1, h2⟩ := hullLoopAux_run_pd u theta sigma n _ hstart_pd
    obtain ⟨q1, q2, q3⟩ := run_post_fields st0 _
    rw [q1, closeTrace_run_pd, h1, hstart_pdl, List.nil_append]

/-- Resolver dispatch for a valid negative step: hull-computed mode,
with the `m > n/2` case mirrored through a negated radius. -/
theorem resolve_neg_step (r : ℝ) (n : ℕ) (mz : ℤ) (eu : Option ℝ)
    (hneg : mz < 0) (hhi : -mz ≤ (n : ℤ) - 1) :
    resolve r n (some mz) eu =
      (if (n : ℤ) < 2 * (-mz)
        then .ok (resolveHullComputed (-r) n (n - (-mz).toNat))
        else .ok (resolveHullComputed r n (-mz).toNat)) := by
  simp only [resolve]
  rw [if_neg (by omega), if_neg (by omega)]

/-- The trace consequences shared by both hull modes: once the resolver
returns `Geo.hull u theta sigma`, the call succeeds and the emitted
trace consists of exactly `2n` forward moves of distance `u`, all
pen-down for a pen-down caller, with no other forward anywhere. -/
theorem star_hull_run (st0 : TState) (r : ℝ) (n : ℕ) (step : Option ℤ) (eu : Option ℝ)
    (uu th sg : ℝ) (hpen : st0.pendown = true)
    (hres : resolve r n step eu = .ok (.hull uu th sg)) :
    okB (star st0 r n step eu) = true ∧
    ∀ tr st', star st0 r n step eu = .ok (tr, st') →
      fwdDists tr = List.replicate (2 * n) uu ∧
      (runTrace st0 tr).pd = List.replicate (2 * n) uu := by
  constructor
  · simp [star, hres, okB]
  · intro tr st' hok
    simp only [star, hres] at hok
    rw [Except.ok.injEq, Prod.mk.injEq] at hok
    obtain ⟨htr, -⟩ := hok
    subst htr
    simp only [drawBody]
    exact hull_full_run st0 uu th sg n hpen

/-- C7 (amended): every hull-mode call the resolver accepts — any
valid negative step, or a supplied edge length `v ≥ s/2` with a
positive radius — from a pen-down cursor issues exactly `2n` pen-down
forward moves of one common distance `u` and no other forward moves
before the final repositioning.  For a non-positive radius the
edge-minimum bound alone does not guarantee this: `s/2 ≤ 0` makes the
bound vacuous and the call can abort inside
`math.acos(s / (2.0 * u))` instead of drawing (see the
counterexample). -/
theorem c7_hull_moves (st0 : TState) (r : ℝ) (n : ℕ) (step : Option ℤ) (eu : Option ℝ)
    (hn : 3 ≤ n) (hpen : st0.pendown = true)
    (hmode : (∃ mz : ℤ, step = some mz ∧ mz < 0 ∧ -mz ≤ (n : ℤ) - 1) ∨
      (step = none ∧ 0 < r ∧ ∃ v : ℝ, eu = some v ∧ shalf r n ≤ v)) :
    HullMovesProp st0 r n step eu := by
  rcases hmode with ⟨mz, hstep, hneg, hhi⟩ | ⟨hstep, hr, v, heu, hvalid⟩
  · subst hstep
    have hresA := resolve_neg_step r n mz eu hneg hhi
    obtain ⟨uu, th, sg, hres⟩ : ∃ uu th sg,
        resolve r n (some mz) eu = .ok (Geo.hull uu th sg) := by
      rw [hresA]
      by_cases hinv : (n : ℤ) < 2 * (-mz) <;> simp only [hinv, if_true, if_false] <;>
        exact ⟨_, _, _, rfl⟩
    obtain ⟨hok1, hok2⟩ := star_hull_run st0 r n (some mz) eu uu th sg hpen hres
    exact ⟨hok1, uu, th, sg, hres, hok2⟩
  · subst hstep
    subst heu
    have hsgn : (if r < 0 then (-1:ℝ) else 1) = 1 := if_neg (not_lt.mpr hr.le)
    have hs : 2 * ((1:ℝ) * r) * Real.sin (1 * (2 * Real.pi) / (n:ℝ) / 2)
        = 2 * (r * Real.sin (Real.pi / n)) := by
      rw [show (1 * (2 * Real.pi) / (n:ℝ) / 2 : ℝ) = Real.pi / n by ring]
      ring
    have hvalid' : r * Real.sin (Real.pi / n) ≤ v := by
      unfold shalf at hvalid
      rw [hsgn, hs] at hvalid
      linarith
    obtain ⟨th, sg, hres1⟩ := resolveHullGiven_pos_ok r n v hr hn hvalid'
    have hres : resolve r n none (some v) = .ok (Geo.hull v th sg) := hres1
    obtain ⟨hok1, hok2⟩ := star_hull_run st0 r n none (some v) v th sg hpen hres
    exact ⟨hok1, v, th, sg, hres, hok2⟩

/-- Witness for C7 (amended) at the concrete call `star(250, 7,
step=-3)`: a hull-only 7-point star with 14 equal forward moves and no
interior chords. -/
theorem c7_hull_moves_wit :
    3 ≤ 7 ∧ st0c.pendown = true ∧
    ((∃ mz : ℤ, some (-3 : ℤ) = some mz ∧ mz < 0 ∧ -mz ≤ (7 : ℤ) - 1) ∨
      ((some (-3 : ℤ) : Option ℤ) = none ∧ (0:ℝ) < 250 ∧
        ∃ v : ℝ, (none : Option ℝ) = some v ∧ shalf 250 7 ≤ v)) ∧
    HullMovesProp st0c 250 7 (some (-3)) none :=
  ⟨by decide, rfl, Or.inl ⟨-3, rfl, by decide, by decide⟩,
    c7_hull_moves st0c 250 7 (some (-3)) none (by decide) rfl
      (Or.inl ⟨-3, rfl, by decide, by decide⟩)⟩

/-- Counterexample to C7 as stated: the hull-given call
`star(-150, 7, edgelen=10)` satisfies the spec's edge validity bound
`u ≥ s/2` (for the negative radius, `s/2 = -150·sin(π/7) < 0 ≤ 10`),
yet the emitter never issues a single forward move: the call aborts
in `rho = math.acos(s / (2.0 * u))` because the argument
`-15·sin(π/7) ≈ -6.51` lies below `-1`, so Python raises `ValueError`
(math domain error) rather than drawing `2n` hull edges. -/
theorem c7_hull_given_crash_cex :
    shalf (-150 : ℝ) 7 ≤ 10 ∧
    errOf (star st0c (-150 : ℝ) 7 none (some 10)) = some .mathDomain ∧
    okB (star st0c (-150 : ℝ) 7 none (some 10)) = false := by
  have hsin7 : (2:ℝ) / 7 ≤ Real.sin (Real.pi / 7) := by
    have h := Real.mul_le_sin (show (0:ℝ) ≤ Real.pi / 7 by positivity)
      (show Real.pi / 7 ≤ Real.pi / 2 by linarith [Real.pi_pos])
    have he : 2 / Real.pi * (Real.pi / 7) = (2:ℝ) / 7 := by
      field_simp
    rw [he] at h
    exact h
  have hsgn : (if (-150:ℝ) < 0 then (-1:ℝ) else 1) = -1 := if_pos (by norm_num)
  have harg : (-1:ℝ) * (2 * Real.pi) / ((7:ℕ):ℝ) / 2 = -(Real.pi / 7) := by
    push_cast
    ring
  have hS : 2 * ((-1:ℝ) * -150) * -Real.sin (Real.pi / 7)
      = -(300 * Real.sin (Real.pi / 7)) := by ring
  have hres : resolve (-150 : ℝ) 7 none (some 10) = .error .mathDomain := by
    show resolveHullGiven (-150 : ℝ) 7 10 = .error .mathDomain
    simp only [resolveHullGiven, hsgn]
    rw [harg, Real.sin_neg, hS]
    have h1 : ¬((10:ℝ) < -(300 * Real.sin (Real.pi / 7)) / 2) := by
      push_neg
      linarith
    have h2 : ¬((2:ℝ) * 10 = 0) := by norm_num
    have h3 : -(300 * Real.sin (Real.pi / 7)) / (2 * 10) < (-1:ℝ) ∨
        (1:ℝ) < -(300 * Real.sin (Real.pi / 7)) / (2 * 10) := by
      left
      rw [div_lt_iff (by norm_num : (0:ℝ) < 2 * 10)]
      linarith
    rw [if_neg h1, if_neg h2, if_pos h3]
  have hshalf : shalf (-150 : ℝ) 7 ≤ 10 := by
    unfold shalf
    rw [if_pos (by norm_num : (-150:ℝ) < 0), harg, Real.sin_neg, hS]
    linarith
  exact ⟨hshalf, by simp [star, hres, errOf], by simp [star, hres, okB]⟩

/-! ## Direction inversion (mirror) analysis -/

/-- The resolver `resolveHullComputed` spelled out. -/
theorem resolveHullComputed_eq (r : ℝ) (n m : ℕ) :
    resolveHullComputed r n m = .hull
      (Real.sin ((if r < 0 then (-1 : ℝ) else 1) * (2 * Real.pi) / n / 2) * r
        / Real.sin (Real.pi - ((if r < 0 then (-1 : ℝ) else 1) * (2 * Real.pi) / n
          + (Real.pi - (if r < 0 then (-1 : ℝ) else 1) * (2 * Real.pi) / n * m)) / 2))
      (Real.pi - (if r < 0 then (-1 : ℝ) else 1) * (2 * Real.pi) / n * m)
      (Real.pi - 2 * (((if r < 0 then (-1 : ℝ) else 1) * ((n : ℝ) - 2) / n * Real.pi
        - (Real.pi - (if r < 0 then (-1 : ℝ) else 1) * (2 * Real.pi) / n * m)) / 2)) := rfl

/-- Negating a nonzero radius flips the computed sign factor. -/
theorem sgn_neg (r : ℝ) (hr : r ≠ 0) :
    (if -r < 0 then (-1 : ℝ) else 1) = -(if r < 0 then (-1 : ℝ) else 1) := by
  rcases lt_trichotomy r 0 with h | h | h
  · rw [if_pos h, if_neg (by linarith)]
    norm_num
  · exact absurd h hr
  · rw [if_neg (not_lt.mpr h.le), if_pos (by linarith)]

/-- Mirror relation between the hull geometries computed for `-r` and
`r` (same `n`, `m`, `r ≠ 0`): the edge length is identical and the
three rotation angles the emitter derives are negated modulo full
turns — the initial and per-point turns exactly, the inner turn
`sigma - π` up to one extra full turn. -/
theorem hull_mirror_consts (r : ℝ) (n m : ℕ) (hr : r ≠ 0) :
    ∃ uu thA sgA thB sgB,
      resolveHullComputed (-r) n m = .hull uu thA sgA ∧
      resolveHullComputed r n m = .hull uu thB sgB ∧
      (Real.pi - thA) / 2 + (Real.pi - thB) / 2 = 0 ∧
      (sgA - Real.pi) + (sgB - Real.pi) = 2 * Real.pi ∧
      (Real.pi - thA) + (Real.pi - thB) = 0 := by
  have hA := resolveHullComputed_eq (-r) n m
  have hB := resolveHullComputed_eq r n m
  rw [sgn_neg r hr] at hA
  set e : ℝ := if r < 0 then (-1 : ℝ) else 1 with he
  have hu : Real.sin (-e * (2 * Real.pi) / n / 2) * (-r)
      / Real.sin (Real.pi - (-e * (2 * Real.pi) / n
        + (Real.pi - -e * (2 * Real.pi) / n * m)) / 2)
      = Real.sin (e * (2 * Real.pi) / n / 2) * r
      / Real.sin (Real.pi - (e * (2 * Real.pi) / n
        + (Real.pi - e * (2 * Real.pi) / n * m)) / 2) := by
    have hnum : Real.sin (-e * (2 * Real.pi) / (n : ℝ) / 2)
        = -Real.sin (e * (2 * Real.pi) / (n : ℝ) / 2) := by
      rw [show -e * (2 * Real.pi) / (n : ℝ) / 2
          = -(e * (2 * Real.pi) / (n : ℝ) / 2) by ring, Real.sin_neg]
    have hden : Real.sin (Real.pi - (-e * (2 * Real.pi) / (n : ℝ)
          + (Real.pi - -e * (2 * Real.pi) / (n : ℝ) * m)) / 2)
        = Real.sin (Real.pi - (e * (2 * Real.pi) / (n : ℝ)
          + (Real.pi - e * (2 * Real.pi) / (n : ℝ) * m)) / 2) := by
      rw [show Real.pi - (-e * (2 * Real.pi) / (n : ℝ)
            + (Real.pi - -e * (2 * Real.pi) / (n : ℝ) * m)) / 2
          = Real.pi - (Real.pi - (e * (2 * Real.pi) / (n : ℝ)
            + (Real.pi - e * (2 * Real.pi) / (n : ℝ) * m)) / 2) by ring,
        Real.sin_pi_sub]
    rw [hnum, hden]
    ring
  refine ⟨Real.sin (e * (2 * Real.pi) / n / 2) * r
      / Real.sin (Real.pi - (e * (2 * Real.pi) / n
        + (Real.pi - e * (2 * Real.pi) / n * m)) / 2),
    Real.pi - -e * (2 * Real.pi) / n * m,
    Real.pi - 2 * ((-e * ((n : ℝ) - 2) / n * Real.pi
      - (Real.pi - -e * (2 * Real.pi) / n * m)) / 2),
    Real.pi - e * (2 * Real.pi) / n * m,
    Real.pi - 2 * ((e * ((n : ℝ) - 2) / n * Real.pi
      - (Real.pi - e * (2 * Real.pi) / n * m)) / 2),
    ?_, hB, by ring, by ring, by ring⟩
  rw [hA, hu]

/-- The hull loops for mirror geometries are pointwise mirror traces. -/
theorem mirror_hullLoopAux (uA thA sgA uB thB sgB : ℝ)
    (hu : uA = uB)
    (h2 : (sgA - Real.pi) + (sgB - Real.pi) = 2 * Real.pi)
    (h3 : (Real.pi - thA) + (Real.pi - thB) = 0) :
    ∀ c, List.Forall₂ MirrorCmd (hullLoopAux uA thA sgA c) (hullLoopAux uB thB sgB c) := by
  intro c
  induction c with
  | zero => exact List.Forall₂.nil
  | succ c ih =>
    rw [hullLoopAux, hullLoopAux]
    refine List.rel_append ih ?_
    refine List.Forall₂.cons hu (List.Forall₂.cons ?_
      (List.Forall₂.cons hu (List.Forall₂.cons ?_ List.Forall₂.nil)))
    · exact ⟨1, by push_cast; linarith⟩
    · exact ⟨0, by push_cast; linarith⟩

/-- The map `rotAngles` distributes over concatenation. -/
theorem rotAngles_append (l1 l2 : List Cmd) :
    rotAngles (l1 ++ l2) = rotAngles l1 ++ rotAngles l2 := by
  simp [rotAngles, List.filterMap_append]

/-- The rotation-angle sequence of a successful hull-mode call: the
initial `(π - theta)/2` turn followed by the loop's turns. -/
theorem rotAngles_star_hull (st0 : TState) (r : ℝ) (n : ℕ) (step : Option ℤ)
    (eu : Option ℝ) (uu th sg : ℝ)
    (hres : resolve r n step eu = .ok (.hull uu th sg)) :
    rotAngles (okTrace (star st0 r n step eu))
      = (Real.pi - th) / 2 :: rotAngles (hullLoopAux uu th sg n) := by
  simp only [star, hres, okTrace, drawBody]
  simp only [List.cons_append, List.append_assoc]
  rw [rotAngles_append]
  have hpre : rotAngles (if st0.hasUndobuffer then [Cmd.undoPushSeq, Cmd.undoCumulate true]
      else ([] : List Cmd)) = [] := by
    by_cases hu : st0.hasUndobuffer <;> simp only [hu, if_true, if_false] <;> rfl
  rw [hpre, List.nil_append]
  have hcons : rotAngles (Cmd.radiansMode :: (Cmd.rotate ((Real.pi - th) / 2)
        :: (hullLoopAux uu th sg n
          ++ (closeTrace st0.position st0.heading st0.fullcircle
            ++ (if st0.hasUndobuffer then [Cmd.undoCumulate false]
              else ([] : List Cmd))))))
      = (Real.pi - th) / 2 :: rotAngles (hullLoopAux uu th sg n
          ++ (closeTrace st0.position st0.heading st0.fullcircle
            ++ (if st0.hasUndobuffer then [Cmd.undoCumulate false]
              else ([] : List Cmd)))) := rfl
  rw [hcons, rotAngles_append, rotAngles_append]
  have hclose : rotAngles (closeTrace st0.position st0.heading st0.fullcircle) = [] := rfl
  have hpost : rotAngles (if st0.hasUndobuffer then [Cmd.undoCumulate false]
      else ([] : List Cmd)) = [] := by
    by_cases hu : st0.hasUndobuffer <;> simp only [hu, if_true, if_false] <;> rfl
  rw [hclose, hpost]
  simp

/-- The first rotation of the hull loop is the inner turn `sigma - π`. -/
theorem rotAngles_hullLoop_head (u th sg : ℝ) : ∀ c : ℕ, 0 < c →
    (rotAngles (hullLoopAux u th sg c)).head? = some (sg - Real.pi) := by
  intro c
  induction c with
  | zero => omega
  | succ c ih =>
    intro _
    rw [hullLoopAux, rotAngles_append]
    rcases Nat.eq_zero_or_pos c with h0 | hpos
    · subst h0
      rfl
    · rw [List.head?_append_of_ne_nil]
      · exact ih hpos
      · intro hnil
        rw [hnil] at ih
        exact absurd (ih hpos) (by simp)

/-- Mirror geometries produce pointwise-mirror traces: both calls
succeed and the emitted command sequences match command by command,
forwards with equal distances and rotations negated modulo full
turns. -/
theorem star_mirror_traces (st0 : TState) (rA rB : ℝ) (n : ℕ) (stepA stepB : Option ℤ)
    (euA euB : Option ℝ) (uu thA sgA thB sgB : ℝ)
    (hresA : resolve rA n stepA euA = .ok (.hull uu thA sgA))
    (hresB : resolve rB n stepB euB = .ok (.hull uu thB sgB))
    (h1 : (Real.pi - thA) / 2 + (Real.pi - thB) / 2 = 0)
    (h2 : (sgA - Real.pi) + (sgB - Real.pi) = 2 * Real.pi)
    (h3 : (Real.pi - thA) + (Real.pi - thB) = 0) :
    okB (star st0 rA n stepA euA) = true ∧
    okB (star st0 rB n stepB euB) = true ∧
    List.Forall₂ MirrorCmd (okTrace (star st0 rA n stepA euA))
      (okTrace (star st0 rB n stepB euB)) := by
  refine ⟨by simp [star, hresA, okB], by simp [star, hresB, okB], ?_⟩
  simp only [star, hresA, hresB, okTrace, drawBody, closeTrace]
  refine List.rel_append ?_ ?_
  · by_cases hu : st0.hasUndobuffer <;> simp only [hu, if_true, if_false]
    · exact List.Forall₂.cons rfl (List.Forall₂.cons rfl List.Forall₂.nil)
    · exact List.Forall₂.nil
  · refine List.Forall₂.cons rfl ?_
    refine List.rel_append (List.rel_append ?_ ?_) ?_
    · refine List.Forall₂.cons ?_ (mirror_hullLoopAux uu thA sgA uu thB sgB rfl h2 h3 n)
      exact ⟨0, by push_cast; linarith⟩
    · exact List.Forall₂.cons rfl (List.Forall₂.cons rfl (List.Forall₂.cons rfl
        (List.Forall₂.cons rfl (List.Forall₂.cons rfl List.Forall₂.nil))))
    · by_cases hu : st0.hasUndobuffer <;> simp only [hu, if_true, if_false]
      · exact List.Forall₂.cons rfl List.Forall₂.nil
      · exact List.Forall₂.nil

/-- C8 (amended): for `r ≠ 0`, `n ≥ 3` and `n/2 < mm ≤ n-1`, the trace
of `star(r, n, step=-mm)` is the mirror image of the trace of
`star(r, n, step=-(n-mm))`: same forward distances, rotations negated
*modulo full turns* (the per-point inner turn differs from the exact
negation by `2π`; the resolver replaces `mm` by `n - mm` and negates
the radius). -/
theorem c8_mirror_mod_tau (st0 : TState) (r : ℝ) (n mm : ℕ)
    (hr : r ≠ 0) (hn : 3 ≤ n) (hm1 : mm ≤ n - 1) (hm2 : n < 2 * mm) :
    MirrorProp st0 r n mm := by
  have hresA : resolve r n (some (-(mm : ℤ))) none
      = .ok (resolveHullComputed (-r) n (n - mm)) := by
    rw [resolve_neg_step r n (-(mm : ℤ)) none (by omega) (by omega)]
    simp only [neg_neg, Int.toNat_natCast]
    rw [if_pos (by omega)]
  have hresB : resolve r n (some (-((n - mm : ℕ) : ℤ))) none
      = .ok (resolveHullComputed r n (n - mm)) := by
    rw [resolve_neg_step r n (-((n - mm : ℕ) : ℤ)) none (by omega) (by omega)]
    simp only [neg_neg, Int.toNat_natCast]
    rw [if_neg (by omega)]
  obtain ⟨uu, thA, sgA, thB, sgB, hgA, hgB, h1, h2, h3⟩ :=
    hull_mirror_consts r n (n - mm) hr
  rw [hgA] at hresA
  rw [hgB] at hresB
  exact star_mirror_traces st0 r r n (some (-(mm : ℤ))) (some (-((n - mm : ℕ) : ℤ)))
    none none uu thA sgA thB sgB hresA hresB h1 h2 h3

/-- Witness for C8 (amended) at `star(1, 7, step=-4)` versus
`star(1, 7, step=-3)`. -/
theorem c8_mirror_mod_tau_wit :
    (1 : ℝ) ≠ 0 ∧ 3 ≤ 7 ∧ 4 ≤ 7 - 1 ∧ 7 < 2 * 4 ∧ MirrorProp st0c 1 7 4 :=
  ⟨by norm_num, by decide, by decide, by decide,
    c8_mirror_mod_tau st0c 1 7 4 (by norm_num) (by decide) (by decide) (by decide)⟩

/-- C8 counterexample: the claim as stated — *all* rotation angles
exactly negated — is false.  At `r = 1, n = 7, mm = 4` the inner turn
is `18π/7` on one side and `-4π/7` on the other (they differ from exact
negation by `2π`); and at the degenerate radius `r = 0` both calls
compute the same positive sign, so the rotation sequences coincide and
are not negations of each other at all. -/
theorem c8_exact_negation_cex :
    (rotAngles (okTrace (star st0c 1 7 (some (-4)) none))
      ≠ (rotAngles (okTrace (star st0c 1 7 (some (-3)) none))).map (fun a => -a)) ∧
    (rotAngles (okTrace (star st0c 0 7 (some (-4)) none))
      ≠ (rotAngles (okTrace (star st0c 0 7 (some (-3)) none))).map (fun a => -a)) := by
  constructor
  · have hres1 : resolve 1 7 (some (-4)) none
        = .ok (resolveHullComputed (-(1 : ℝ)) 7 3) := rfl
    have hres2 : resolve 1 7 (some (-3)) none
        = .ok (resolveHullComputed (1 : ℝ) 7 3) := rfl
    rw [resolveHullComputed_eq] at hres1 hres2
    rw [show (if -(1 : ℝ) < 0 then (-1 : ℝ) else 1) = -1 from if_pos (by norm_num)] at hres1
    rw [show (if (1 : ℝ) < 0 then (-1 : ℝ) else 1) = 1 from if_neg (by norm_num)] at hres2
    intro h
    rw [rotAngles_star_hull st0c 1 7 (some (-4)) none _ _ _ hres1,
      rotAngles_star_hull st0c 1 7 (some (-3)) none _ _ _ hres2,
      List.map_cons, List.cons.injEq] at h
    obtain ⟨-, htail⟩ := h
    have hh := congrArg List.head? htail
    rw [rotAngles_hullLoop_head _ _ _ 7 (by norm_num), List.head?_map,
      rotAngles_hullLoop_head _ _ _ 7 (by norm_num)] at hh
    simp only [Option.map_some', Option.some.injEq] at hh
    push_cast at hh
    field_simp at hh
    linarith [Real.pi_pos]
  · have hres1 : resolve 0 7 (some (-4)) none
        = .ok (resolveHullComputed (-(0 : ℝ)) 7 3) := rfl
    have hres2 : resolve 0 7 (some (-3)) none
        = .ok (resolveHullComputed (0 : ℝ) 7 3) := rfl
    rw [resolveHullComputed_eq] at hres1 hres2
    rw [show (if -(0 : ℝ) < 0 then (-1 : ℝ) else 1) = 1 from if_neg (by norm_num)] at hres1
    rw [show (if (0 : ℝ) < 0 then (-1 : ℝ) else 1) = 1 from if_neg (by norm_num)] at hres2
    intro h
    rw [rotAngles_star_hull st0c 0 7 (some (-4)) none _ _ _ hres1,
      rotAngles_star_hull st0c 0 7 (some (-3)) none _ _ _ hres2,
      List.map_cons, List.cons.injEq] at h
    obtain ⟨hhead, -⟩ := h
    push_cast at hhead
    field_simp at hhead
    linarith [Real.pi_pos]

end

end StarPolygon
